import Mathlib

/-!
Verification of the acsdkManufactory dependency-injection core
(`src/shared/acsdkManufactory/include/acsdkManufactory/internal/Manufactory_imp.h`
plus the CookBook / RuntimeManufactory machinery it drives).

Shallow embedding conventions:
* C++ types are identified by natural-number codes (`Nat`).
* A `Recipe` records the dependency list and the lifetime policy of a
  producer; instances are natural-number identities allocated from a
  monotone counter, so pointer identity of `std::shared_ptr` values is
  modelled by equality of these identifiers.
* Template parameter packs (`Exports...`, `Parameters...`, `Subset...`)
  are lists of type codes; `static_assert` conditions become decidable
  predicates over those lists.
* `std::shared_ptr<RuntimeManufactory>` sharing is modelled by a small
  heap (`World`) mapping reference identifiers to `RuntimeManufactory`
  values, so that "same underlying object" is equality of references.
-/

/-- Lifetime policy of a Recipe: construct-once-and-cache (`singleton`)
versus construct-fresh-per-request (`transient`).  Modelled from the
spec: the Recipe data model of the repository's CookBook machinery is
not under `src/`. -/
inductive Lifetime : Type where
  | singleton : Lifetime
  | transient : Lifetime
deriving DecidableEq, Repr

/-- Modelled from the spec: a Recipe is a declared producer of one type,
carrying its ordered dependency types and a lifetime policy.  The
construct function itself is modelled by fresh identity allocation in
`getT` below. -/
structure Recipe : Type where
  deps : List Nat
  lifetime : Lifetime
deriving DecidableEq, Repr

/-- Modelled from the spec: a CookBook is the merged, type-keyed
collection of Recipes for one composition, together with the export set
the composition must be able to produce. -/
structure CookBook : Type where
  recipes : List (Nat × Recipe)
  requiredExports : List Nat
deriving DecidableEq, Repr

/-- Look up the Recipe producing type `t` (first entry wins, matching a
type-keyed map with unique keys). -/
def CookBook.findRecipe (cb : CookBook) (t : Nat) : Option Recipe :=
  (cb.recipes.find? (fun p => p.1 == t)).map Prod.snd

/-- The exported type keys of a CookBook. -/
def CookBook.keysOf (cb : CookBook) : List Nat :=
  cb.recipes.map Prod.fst

/-- Direct dependency edge of the CookBook's graph: `a`'s Recipe lists
`b` among its dependency types. -/
def Edge (cb : CookBook) (a b : Nat) : Prop :=
  ∃ r : Recipe, cb.findRecipe a = some r ∧ b ∈ r.deps

/-- A type is reachable when it is a required export or a dependency of
a reachable type's Recipe (the transitive requirement set of the spec's
completeness walk). -/
inductive Reachable (cb : CookBook) : Nat → Prop where
  | base (t : Nat) : t ∈ cb.requiredExports → Reachable cb t
  | step (a b : Nat) (r : Recipe) :
      Reachable cb a → cb.findRecipe a = some r → b ∈ r.deps → Reachable cb b

/-- Result of the completeness check; `missing` and `cyclic` are the two
distinct failure conditions of the spec's error taxonomy, and `fuelOut`
is the depth-budget guard of the embedding (proved unreachable). -/
inductive CheckResult : Type where
  | ok : CheckResult
  | missing : Nat → CheckResult
  | cyclic : Nat → CheckResult
  | fuelOut : CheckResult
deriving DecidableEq, Repr

/-- Modelled from the spec: the completeness walk of
`CookBook::checkCompleteness` (not under `src/`).  It explores the types
in `ts`, skipping types already fully explored (`done`), reporting a
cycle when it meets a type still on the current visiting path (`path`),
reporting a missing Recipe as such, and otherwise descending into the
type's dependency list with one unit of depth budget consumed. -/
def visitList : Nat → CookBook → List Nat → List Nat → List Nat → CheckResult × List Nat
  | _, _, _, done, [] => (.ok, done)
  | f, cb, path, done, t :: rest =>
    if t ∈ done then
      visitList f cb path done rest
    else if t ∈ path then
      (.cyclic t, done)
    else
      match cb.findRecipe t with
      | none => (.missing t, done)
      | some r =>
        match f with
        | 0 => (.fuelOut, done)
        | f' + 1 =>
          match visitList f' cb (t :: path) done r.deps with
          | (.ok, done₁) => visitList (f' + 1) cb path (t :: done₁) rest
          | other => other
termination_by f _ _ _ ts => (f, ts.length)

/-- Modelled from the spec: `checkCompleteness` runs the reachability
walk from the required exports; the depth budget `recipes.length + 1`
dominates the longest possible visiting path (proved never to run out). -/
def CookBook.checkCompleteness (cb : CookBook) : CheckResult :=
  (visitList (cb.recipes.length + 1) cb [] [] cb.requiredExports).1

/-- Mutable state of a RuntimeManufactory: the singleton cache, the
fresh-identity counter for constructed instances, and the log of
construct-function invocations (one entry per invocation, recording the
constructed type). -/
structure MState : Type where
  cache : List (Nat × Nat)
  nextId : Nat
  constructions : List Nat
deriving DecidableEq, Repr

/-- Look up a cached singleton instance. -/
def lookupCache (c : List (Nat × Nat)) (t : Nat) : Option Nat :=
  (c.find? (fun p => p.1 == t)).map Prod.snd

/-- The state of a freshly composed RuntimeManufactory: empty cache,
no constructions. -/
def initMState : MState :=
  ⟨[], 0, []⟩

mutual

/-- Modelled from the spec: `RuntimeManufactory::get` (not under
`src/`).  A cached singleton is returned as-is; otherwise the dependency
types are resolved recursively, the construct function is invoked (one
fresh instance identity, one log entry), and the result is cached for
singletons and never cached for transients. -/
def getT : Nat → CookBook → Nat → MState → Option Nat × MState
  | fuel, cb, t, s =>
    match cb.findRecipe t with
    | none => (none, s)
    | some r =>
      match r.lifetime with
      | .singleton =>
        match lookupCache s.cache t with
        | some v => (some v, s)
        | none =>
          match fuel with
          | 0 => (none, s)
          | f + 1 =>
            match getList f cb r.deps s with
            | (some _, s₁) =>
              (some s₁.nextId,
                ⟨(t, s₁.nextId) :: s₁.cache, s₁.nextId + 1, s₁.constructions ++ [t]⟩)
            | (none, s₁) => (none, s₁)
      | .transient =>
        match fuel with
        | 0 => (none, s)
        | f + 1 =>
          match getList f cb r.deps s with
          | (some _, s₁) =>
            (some s₁.nextId, ⟨s₁.cache, s₁.nextId + 1, s₁.constructions ++ [t]⟩)
          | (none, s₁) => (none, s₁)
termination_by fuel _ _ _ => (fuel, 0)

/-- Resolve a list of dependency types left to right, threading the
state; any failure aborts the whole resolution. -/
def getList : Nat → CookBook → List Nat → MState → Option (List Nat) × MState
  | _, _, [], s => (some [], s)
  | fuel, cb, d :: rest, s =>
    match getT fuel cb d s with
    | (some v, s₁) =>
      match getList fuel cb rest s₁ with
      | (some vs, s₂) => (some (v :: vs), s₂)
      | (none, s₂) => (none, s₂)
    | (none, s₁) => (none, s₁)
termination_by fuel _ ds _ => (fuel, ds.length + 1)

end

/-- Depth budget used by a RuntimeManufactory's `get`: one level per
Recipe plus one. -/
def rmFuel (cb : CookBook) : Nat :=
  cb.recipes.length + 1

/-- A RuntimeManufactory owns its CookBook and the mutable singleton
cache / construction state. -/
structure RuntimeManufactory : Type where
  cookBook : CookBook
  st : MState
deriving DecidableEq

/-- Modelled from the spec: `RuntimeManufactory`'s retrieval entry
point, resolving a type against the CookBook and updating the cache
state. -/
def RuntimeManufactory.get (rm : RuntimeManufactory) (t : Nat) :
    Option Nat × RuntimeManufactory :=
  match getT (rmFuel rm.cookBook) rm.cookBook t rm.st with
  | (res, s₁) => (res, ⟨rm.cookBook, s₁⟩)

/-- The heap of shared `RuntimeManufactory` objects: `std::shared_ptr`
identity is modelled by the `Nat` reference key, so two facades share
the same underlying RuntimeManufactory exactly when they hold the same
reference. -/
structure World : Type where
  rms : List (Nat × RuntimeManufactory)
  nextRef : Nat
deriving DecidableEq

/-- Dereference a shared RuntimeManufactory pointer. -/
def lookupRM (w : World) (ref : Nat) : Option RuntimeManufactory :=
  (w.rms.find? (fun p => p.1 == ref)).map Prod.snd

/-- Replace the first binding of `ref` (write-back of the mutated
RuntimeManufactory). -/
def updateAssoc : List (Nat × RuntimeManufactory) → Nat → RuntimeManufactory →
    List (Nat × RuntimeManufactory)
  | [], _, _ => []
  | p :: rest, ref, rm =>
    if p.1 == ref then (ref, rm) :: rest else p :: updateAssoc rest ref rm

/-- Write an updated RuntimeManufactory back into the heap. -/
def updateRM (w : World) (ref : Nat) (rm : RuntimeManufactory) : World :=
  ⟨updateAssoc w.rms ref rm, w.nextRef⟩

/-- A Manufactory facade: the statically declared export list together
with the shared reference to the underlying RuntimeManufactory
(`m_runtimeManufactory`). -/
structure Facade : Type where
  exports : List Nat
  rmRef : Nat
deriving DecidableEq, Repr

/-- A parameter of a `Component<Parameters...>` pack: an exported type
with its Recipe, or an unsatisfied `Import<Type>` declaration.
Modelled from the spec: `Component` itself is not under `src/`. -/
inductive CParam : Type where
  | exported : Nat → Recipe → CParam
  | imported : Nat → CParam
deriving DecidableEq, Repr

/-- Whether a parameter is an `Import<Type>` entry. -/
def CParam.isImported : CParam → Bool
  | .exported _ _ => false
  | .imported _ => true

/-- The type code a parameter mentions. -/
def CParam.typeOf : CParam → Nat
  | .exported t _ => t
  | .imported t => t

/-- Modelled from the spec: a Component is the ordered collection of
declared parameters accumulated from one module. -/
structure Component : Type where
  params : List CParam
deriving DecidableEq, Repr

/-- The (type, Recipe) pair contributed by an export parameter. -/
def CParam.recipeOf : CParam → Option (Nat × Recipe)
  | .exported t r => some (t, r)
  | .imported _ => none

/-- Modelled from the spec: `Component::getCookBook` collects the
Component's Recipes; every exported type is part of the required export
set the completeness check must cover. -/
def Component.getCookBook (c : Component) : CookBook :=
  ⟨c.params.filterMap CParam.recipeOf,
    (c.params.filterMap CParam.recipeOf).map Prod.fst⟩

/-- The declared export type codes of a Component. -/
def Component.exportedTypes (c : Component) : List Nat :=
  (c.params.filterMap CParam.recipeOf).map Prod.fst

/-- Embedding of `internal::RemoveTypes<std::tuple<Exports...>,
std::tuple<Parameters...>>::type` as used in `Manufactory_imp.h`: the
elements of the first list with every element of the second list
removed (the "missing exports"). -/
def removeTypes (xs ys : List Nat) : List Nat :=
  xs.filter (fun x => !(ys.contains x))

/-- Embedding of `internal::HasImport<Parameters...>::value`. -/
def hasImport (ps : List CParam) : Bool :=
  ps.any CParam.isImported

/-- Embedding of `internal::ContainsType<std::tuple<Exports...>,
Type>::value`. -/
def containsType (xs : List Nat) (t : Nat) : Bool :=
  xs.contains t

/-- The compile-time checks of `Manufactory<Exports...>::create(component)`
in `Manufactory_imp.h`: the `HasImport` static assertion and the
`MissingExports = {}` static assertion.  An ill-formed instantiation is
rejected by the compiler before any runtime composition step. -/
def createCompiles (exports : List Nat) (c : Component) : Prop :=
  hasImport c.params = false ∧ removeTypes exports (c.params.map CParam.typeOf) = []

/-- The compile-time check of `Manufactory<Exports...>::get<Type>()`:
`ContainsType<std::tuple<Exports...>, Type>::value` must hold. -/
def getCompiles (f : Facade) (t : Nat) : Prop :=
  containsType f.exports t = true

/-- The compile-time check of `createSubsetManufactory<Subset...>()`:
`RemoveTypes<Subset..., Exports...>` must be empty. -/
def subsetCompiles (sub exports : List Nat) : Prop :=
  removeTypes sub exports = []

/-- Embedding of `Manufactory<Exports...>::create(component)` from
`Manufactory_imp.h`: build the CookBook, run the completeness check,
return null on failure, otherwise allocate a fresh RuntimeManufactory
(the private CookBook constructor) and wrap it in a new facade. -/
def Manufactory.create (exports : List Nat) (c : Component) (w : World) :
    Option Facade × World :=
  let cb := c.getCookBook
  match cb.checkCompleteness with
  | .ok =>
    (some ⟨exports, w.nextRef⟩,
      ⟨(w.nextRef, ⟨cb, initMState⟩) :: w.rms, w.nextRef + 1⟩)
  | _ => (none, w)

/-- Embedding of the private overload
`Manufactory<Exports...>::create(runtimeManufactory)` from
`Manufactory_imp.h`: wrap the given shared RuntimeManufactory reference
without any runtime check and without allocating anything. -/
def Manufactory.createFromRuntime (exports : List Nat) (ref : Nat) : Facade :=
  ⟨exports, ref⟩

/-- Embedding of the member
`Manufactory<Exports...>::createSubsetManufactory<Subset...>()` from
`Manufactory_imp.h`: delegate to `create(m_runtimeManufactory)`; the
heap is untouched (no new RuntimeManufactory, no new cache). -/
def Manufactory.createSubsetManufactory (m : Facade) (sub : List Nat) (w : World) :
    Option Facade × World :=
  (some (Manufactory.createFromRuntime sub m.rmRef), w)

/-- Embedding of the static overload
`Manufactory<Exports...>::createSubsetManufactory(input)` from
`Manufactory_imp.h`: a null input pointer is reported as a null result
(after logging); otherwise the input facade's RuntimeManufactory
reference is wrapped unconditionally. -/
def Manufactory.createSubsetFrom (exports : List Nat) (input : Option Facade) :
    Option Facade :=
  match input with
  | none => none
  | some f => some (Manufactory.createFromRuntime exports f.rmRef)

/-- Embedding of `Manufactory<Exports...>::get<Type>()` from
`Manufactory_imp.h`: pure delegation to the underlying
RuntimeManufactory's `get` (the export list plays no runtime role). -/
def Manufactory.get (f : Facade) (t : Nat) (w : World) : Option Nat × World :=
  match lookupRM w f.rmRef with
  | none => (none, w)
  | some rm =>
    match rm.get t with
    | (res, rm₁) => (res, updateRM w f.rmRef rm₁)

/-- Iterate `n` sequential `get` calls for the same type against the
same RuntimeManufactory state, collecting the results (the serialized
execution of `n` concurrent callers, cf. spec §5). -/
def getIter : Nat → CookBook → Nat → MState → List (Option Nat) × MState
  | 0, _, _, s => ([], s)
  | n + 1, cb, t, s =>
    match getT (rmFuel cb) cb t s with
    | (res, s₁) =>
      match getIter n cb t s₁ with
      | (results, s₂) => (res :: results, s₂)

/-- Remove the Recipe producing type `x` from a CookBook (used to state
the spec's "removing any single Recipe reachable from a required export
makes the check fail"). -/
def removeRecipe (cb : CookBook) (x : Nat) : CookBook :=
  ⟨cb.recipes.filter (fun p => !(p.1 == x)), cb.requiredExports⟩

/-- A list is reverse-topologically sorted for `cb` when every element
has a Recipe whose dependencies all occur strictly later in the list;
this is the shape of the `done` accumulator of the completeness walk. -/
def TopoInv (cb : CookBook) : List Nat → Prop
  | [] => True
  | t :: rest =>
    (∃ r : Recipe, cb.findRecipe t = some r ∧ ∀ d ∈ r.deps, d ∈ rest) ∧
      TopoInv cb rest

/-- Indicator of a type being present in the singleton cache (0 or 1),
used to account for at-most-one construction per singleton type. -/
def cacheInd (s : MState) (k : Nat) : Nat :=
  if (lookupCache s.cache k).isSome then 1 else 0

/-- Number of construct-function invocations logged for type `k`. -/
def countC (s : MState) (k : Nat) : Nat :=
  s.constructions.count k

/-- Example CookBook: a singleton chain 1 → 2 plus a transient 3, all
required; complete and acyclic. -/
def cbW : CookBook :=
  ⟨[(1, ⟨[2], .singleton⟩), (2, ⟨[], .singleton⟩), (3, ⟨[], .transient⟩)], [1, 2, 3]⟩

/-- Example CookBook: the cycle 1 → 2 → 1, reachable from the required
export 1, with both Recipes present. -/
def cbCycle : CookBook :=
  ⟨[(1, ⟨[2], .singleton⟩), (2, ⟨[1], .singleton⟩)], [1]⟩

/-- Example CookBook: the cycle 1 → 2 → 1 is present in the graph but
unreachable from the sole required export 3. -/
def cbHidden : CookBook :=
  ⟨[(3, ⟨[], .singleton⟩), (1, ⟨[2], .singleton⟩), (2, ⟨[1], .singleton⟩)], [3]⟩

/-- Example Component whose CookBook is `cbW`. -/
def compW : Component :=
  ⟨[.exported 1 ⟨[2], .singleton⟩, .exported 2 ⟨[], .singleton⟩,
    .exported 3 ⟨[], .transient⟩]⟩

/-- Example Component exporting type 1 whose Recipe depends on the
unsatisfied type 2: its CookBook fails the completeness check. -/
def compBad : Component :=
  ⟨[.exported 1 ⟨[2], .singleton⟩]⟩

/-- Example state: singleton 2 already cached as instance 0 after one
construction. -/
def stCached : MState :=
  ⟨[(2, 0)], 1, [2]⟩

/-- Example heap: one RuntimeManufactory at reference 0, over `cbW`,
with singleton 2 already cached. -/
def wCached : World :=
  ⟨[(0, ⟨cbW, stCached⟩)], 1⟩

/-- Example facade over the RuntimeManufactory at reference 0. -/
def mW : Facade :=
  ⟨[1, 2, 3], 0⟩

/-- Example CookBook with no Recipes and no required exports. -/
def cbEmpty : CookBook :=
  ⟨[], []⟩

/-- Example Component declaring an unsatisfied `Import<Type>` entry. -/
def compImp : Component :=
  ⟨[.imported 5]⟩

/-- Monotone evolution of the construction state: the identity counter
never decreases, cached singletons stay cached, and the construction log
only grows. -/
def MonoState (s s₁ : MState) : Prop :=
  s.nextId ≤ s₁.nextId ∧
    (∀ k : Nat, (lookupCache s.cache k).isSome = true →
      (lookupCache s₁.cache k).isSome = true) ∧
    (∀ k : Nat, countC s k ≤ countC s₁ k)

/-- A type with a Recipe is one of the CookBook's keys. -/
theorem mem_keysOf_of_findRecipe {cb : CookBook} {t : Nat} {r : Recipe}
    (h : cb.findRecipe t = some r) : t ∈ cb.keysOf := by
  unfold CookBook.findRecipe at h
  rcases Option.map_eq_some'.1 h with ⟨p, hfind, hsnd⟩
  have hmem : p ∈ cb.recipes := List.mem_of_find?_eq_some hfind
  have hkey := List.find?_some hfind
  have hpt : p.1 = t := by simpa using hkey
  exact hpt ▸ List.mem_map.2 ⟨p, hmem, rfl⟩

/-- A duplicate-free list included in `m` is no longer than `m.dedup`. -/
theorem length_le_dedup {l m : List Nat} (hnd : l.Nodup) (hsub : l ⊆ m) :
    l.length ≤ m.dedup.length := by
  have hsub₂ : l ⊆ m.dedup := fun x hx => List.mem_dedup.2 (hsub hx)
  exact (List.subperm_of_subset hnd hsub₂).length_le

/-- Every member of a reverse-topological list has a Recipe whose
dependencies stay inside the list. -/
theorem topo_mem_closed {cb : CookBook} {l : List Nat} (h : TopoInv cb l)
    {a : Nat} (ha : a ∈ l) :
    ∃ r : Recipe, cb.findRecipe a = some r ∧ ∀ d ∈ r.deps, d ∈ l := by
  induction l with
  | nil => cases ha
  | cons t rest ih =>
    rcases h with ⟨⟨r, hr, hdeps⟩, hrest⟩
    rcases List.mem_cons.1 ha with ha₁ | ha₁
    · subst ha₁
      exact ⟨r, hr, fun d hd => List.mem_cons_of_mem _ (hdeps d hd)⟩
    · rcases ih hrest ha₁ with ⟨r₁, hr₁, hdeps₁⟩
      exact ⟨r₁, hr₁, fun d hd => List.mem_cons_of_mem _ (hdeps₁ d hd)⟩

/-- Edge-reachability cannot leave a reverse-topological list. -/
theorem topo_rtg_closed {cb : CookBook} {l : List Nat} (h : TopoInv cb l)
    {a b : Nat} (ha : a ∈ l) (hab : Relation.ReflTransGen (Edge cb) a b) :
    b ∈ l := by
  induction hab with
  | refl => exact ha
  | tail _ hedge ih =>
    rcases hedge with ⟨r, hr, hd⟩
    rcases topo_mem_closed h ih with ⟨r₁, hr₁, hdeps₁⟩
    have : r₁ = r := by
      have := hr₁.symm.trans hr
      exact Option.some.inj this
    exact hdeps₁ _ (this ▸ hd)

/-- A duplicate-free reverse-topological list contains no type lying on
a dependency cycle. -/
theorem topo_acyclic {cb : CookBook} {l : List Nat} (h : TopoInv cb l)
    (hnd : l.Nodup) {a : Nat} (ha : a ∈ l) :
    ¬ Relation.TransGen (Edge cb) a a := by
  induction l with
  | nil => cases ha
  | cons t rest ih =>
    rcases h with ⟨⟨r, hr, hdeps⟩, hrest⟩
    rcases List.nodup_cons.1 hnd with ⟨htr, hndr⟩
    intro hcyc
    rcases Relation.TransGen.head'_iff.1 hcyc with ⟨b, hab, hba⟩
    rcases List.mem_cons.1 ha with ha₁ | ha₁
    · subst ha₁
      rcases hab with ⟨r₁, hr₁, hd₁⟩
      have hrr : r₁ = r := Option.some.inj (hr₁.symm.trans hr)
      have hb : b ∈ rest := hdeps b (hrr ▸ hd₁)
      exact htr (topo_rtg_closed hrest hb hba)
    · exact ih hrest hndr ha₁ hcyc

/-- Walking down a visiting-path chain yields edge-reachability from any
member to the head of the path. -/
theorem chain_rtg {cb : CookBook} :
    ∀ (p : Nat) (path : List Nat),
      List.Chain' (fun a b => Edge cb b a) (p :: path) →
      ∀ t ∈ p :: path, Relation.ReflTransGen (Edge cb) t p := by
  intro p path
  induction path generalizing p with
  | nil =>
    intro _ t ht
    rcases List.mem_cons.1 ht with ht₁ | ht₁
    · exact ht₁ ▸ Relation.ReflTransGen.refl
    · cases ht₁
  | cons q path' ih =>
    intro hchain t ht
    rcases List.chain'_cons.1 hchain with ⟨hqp, hchain'⟩
    rcases List.mem_cons.1 ht with ht₁ | ht₁
    · exact ht₁ ▸ Relation.ReflTransGen.refl
    · exact (ih q hchain' t ht₁).tail hqp

/-- Invariant of a successful completeness walk: the `done` accumulator
only grows, covers the visited list, stays disjoint from the visiting
path, and remains a duplicate-free reverse-topological list. -/
theorem visit_ok (f : Nat) (cb : CookBook) (path done ts : List Nat) :
    ∀ done₁, visitList f cb path done ts = (.ok, done₁) →
      (∀ p ∈ path, p ∉ done) → done.Nodup → TopoInv cb done →
      done ⊆ done₁ ∧ (∀ x ∈ ts, x ∈ done₁) ∧ (∀ p ∈ path, p ∉ done₁) ∧
        done₁.Nodup ∧ TopoInv cb done₁ := by
  induction f, cb, path, done, ts using visitList.induct with
  | case1 f cb path done =>
    intro done₁ h hpd hnd htopo
    simp only [visitList, Prod.mk.injEq, true_and] at h
    subst h
    exact ⟨fun x hx => hx, fun x hx => absurd hx (List.not_mem_nil x), hpd, hnd, htopo⟩
  | case2 f cb path done t rest hd ih =>
    intro done₁ h hpd hnd htopo
    simp only [visitList, if_pos hd] at h
    rcases ih done₁ h hpd hnd htopo with ⟨h₁, h₂, h₃, h₄, h₅⟩
    refine ⟨h₁, ?_, h₃, h₄, h₅⟩
    intro x hx
    rcases List.mem_cons.1 hx with hx₁ | hx₁
    · exact h₁ (hx₁ ▸ hd)
    · exact h₂ x hx₁
  | case3 f cb path done t rest hd hp =>
    intro done₁ h
    simp only [visitList, if_neg hd, if_pos hp] at h
    simp at h
  | case4 f cb path done t rest hd hp hr =>
    intro done₁ h
    simp only [visitList, if_neg hd, if_neg hp, hr] at h
    simp at h
  | case5 cb path done t rest hd hp r hr =>
    intro done₁ h
    simp only [visitList, if_neg hd, if_neg hp, hr] at h
    simp at h
  | case6 cb path done t rest hd hp r hr f' dsub hsub ihsub ihrest =>
    intro done₁ h hpd hnd htopo
    simp only [visitList, if_neg hd, if_neg hp, hr, hsub] at h
    have hpd₁ : ∀ p ∈ t :: path, p ∉ done := by
      intro p hpmem
      rcases List.mem_cons.1 hpmem with h₁ | h₁
      · exact h₁ ▸ hd
      · exact hpd p h₁
    rcases ihsub dsub hsub hpd₁ hnd htopo with ⟨s₁, s₂, s₃, s₄, s₅⟩
    have htd : t ∉ dsub := s₃ t (List.mem_cons_self t path)
    have hpd₂ : ∀ p ∈ path, p ∉ t :: dsub := by
      intro p hpmem hmem
      rcases List.mem_cons.1 hmem with h₁ | h₁
      · exact hp (h₁ ▸ hpmem)
      · exact s₃ p (List.mem_cons_of_mem _ hpmem) h₁
    have hnd₂ : (t :: dsub).Nodup := List.nodup_cons.2 ⟨htd, s₄⟩
    have htopo₂ : TopoInv cb (t :: dsub) := ⟨⟨r, hr, fun d hx => s₂ d hx⟩, s₅⟩
    rcases ihrest done₁ h hpd₂ hnd₂ htopo₂ with ⟨r₁, r₂, r₃, r₄, r₅⟩
    refine ⟨fun x hx => r₁ (List.mem_cons_of_mem _ (s₁ hx)), ?_, r₃, r₄, r₅⟩
    intro x hx
    rcases List.mem_cons.1 hx with hx₁ | hx₁
    · exact r₁ (hx₁ ▸ List.mem_cons_self t dsub)
    · exact r₂ x hx₁
  | case7 cb path done t rest hd hp r hr f' hnotok ihsub =>
    intro done₁ h
    simp only [visitList, if_neg hd, if_neg hp, hr] at h
    rcases hres : visitList f' cb (t :: path) done r.deps with ⟨res₁, dsub⟩
    rw [hres] at h
    cases res₁ with
    | ok => exact absurd hres (by intro hc; exact hnotok dsub hc)
    | missing x => simp at h
    | cyclic x => simp at h
    | fuelOut => simp at h

/-- A successful completeness check leaves behind a duplicate-free
reverse-topological witness list covering the required exports. -/
theorem checkCompleteness_ok_witness {cb : CookBook}
    (h : cb.checkCompleteness = .ok) :
    ∃ D : List Nat, (∀ x ∈ cb.requiredExports, x ∈ D) ∧ D.Nodup ∧ TopoInv cb D := by
  unfold CookBook.checkCompleteness at h
  rcases hres : visitList (cb.recipes.length + 1) cb [] [] cb.requiredExports with ⟨res, D⟩
  rw [hres] at h
  simp only at h
  subst h
  rcases visit_ok _ cb [] [] cb.requiredExports D hres
      (fun p hp => absurd hp (List.not_mem_nil p)) List.nodup_nil trivial with
    ⟨_, h₂, _, h₄, h₅⟩
  exact ⟨D, h₂, h₄, h₅⟩

/-- Every reachable type belongs to the topological witness list. -/
theorem reachable_mem_witness {cb : CookBook} {D : List Nat}
    (hreq : ∀ x ∈ cb.requiredExports, x ∈ D) (htopo : TopoInv cb D)
    {t : Nat} (h : Reachable cb t) : t ∈ D := by
  induction h with
  | base t ht => exact hreq t ht
  | step a b r _ hr hb iha =>
    rcases topo_mem_closed htopo iha with ⟨r₁, hr₁, hdeps₁⟩
    have : r₁ = r := Option.some.inj (hr₁.symm.trans hr)
    exact hdeps₁ b (this ▸ hb)

/-- Soundness of the walk: a successful completeness check means every
reachable type has a producing Recipe. -/
theorem ok_coverage {cb : CookBook} (h : cb.checkCompleteness = .ok) :
    ∀ t : Nat, Reachable cb t → ∃ r : Recipe, cb.findRecipe t = some r := by
  rcases checkCompleteness_ok_witness h with ⟨D, hreq, hnd, htopo⟩
  intro t ht
  rcases topo_mem_closed htopo (reachable_mem_witness hreq htopo ht) with ⟨r, hr, _⟩
  exact ⟨r, hr⟩

/-- A successful completeness check rules out any dependency cycle among
the reachable types. -/
theorem ok_acyclic {cb : CookBook} (h : cb.checkCompleteness = .ok) :
    ∀ t : Nat, Reachable cb t → ¬ Relation.TransGen (Edge cb) t t := by
  rcases checkCompleteness_ok_witness h with ⟨D, hreq, hnd, htopo⟩
  intro t ht
  exact topo_acyclic htopo hnd (reachable_mem_witness hreq htopo ht)

/-- A `missing` outcome of the walk names a reachable type without a
Recipe, provided the walk started from reachable types. -/
theorem visit_missing (f : Nat) (cb : CookBook) (path done ts : List Nat) :
    ∀ x d, visitList f cb path done ts = (.missing x, d) →
      (∀ y ∈ ts, Reachable cb y) →
      Reachable cb x ∧ cb.findRecipe x = none := by
  induction f, cb, path, done, ts using visitList.induct with
  | case1 f cb path done =>
    intro x d h _
    simp [visitList] at h
  | case2 f cb path done t rest hd ih =>
    intro x d h hts
    simp only [visitList, if_pos hd] at h
    exact ih x d h (fun y hy => hts y (List.mem_cons_of_mem _ hy))
  | case3 f cb path done t rest hd hp =>
    intro x d h _
    simp only [visitList, if_neg hd, if_pos hp] at h
    simp at h
  | case4 f cb path done t rest hd hp hr =>
    intro x d h hts
    simp only [visitList, if_neg hd, if_neg hp, hr, Prod.mk.injEq,
      CheckResult.missing.injEq] at h
    rcases h with ⟨h₁, _⟩
    exact ⟨h₁ ▸ hts t (List.mem_cons_self t rest), h₁ ▸ hr⟩
  | case5 cb path done t rest hd hp r hr =>
    intro x d h _
    simp only [visitList, if_neg hd, if_neg hp, hr] at h
    simp at h
  | case6 cb path done t rest hd hp r hr f' dsub hsub ihsub ihrest =>
    intro x d h hts
    simp only [visitList, if_neg hd, if_neg hp, hr, hsub] at h
    exact ihrest x d h (fun y hy => hts y (List.mem_cons_of_mem _ hy))
  | case7 cb path done t rest hd hp r hr f' hnotok ihsub =>
    intro x d h hts
    simp only [visitList, if_neg hd, if_neg hp, hr] at h
    rcases hres : visitList f' cb (t :: path) done r.deps with ⟨res₁, dsub⟩
    rw [hres] at h
    have hdeps : ∀ y ∈ r.deps, Reachable cb y := by
      intro y hy
      exact Reachable.step t y r (hts t (List.mem_cons_self t rest)) hr hy
    cases res₁ with
    | ok => simp at h
    | missing z =>
      have h₁ : z = x := CheckResult.missing.inj (congrArg Prod.fst h)
      exact h₁ ▸ ihsub z dsub hres hdeps
    | cyclic z => simp at h
    | fuelOut => simp at h

/-- The depth budget suffices: the walk never reports `fuelOut` as long
as the budget dominates the number of distinct Recipe keys not yet on
the visiting path. -/
theorem visit_no_fuelOut (f : Nat) (cb : CookBook) (path done ts : List Nat) :
    path.Nodup → (∀ p ∈ path, p ∈ cb.keysOf) →
    cb.keysOf.dedup.length ≤ f + path.length →
    (visitList f cb path done ts).1 ≠ .fuelOut := by
  induction f, cb, path, done, ts using visitList.induct with
  | case1 f cb path done =>
    intro _ _ _
    simp [visitList]
  | case2 f cb path done t rest hd ih =>
    intro hnd hkeys hfuel
    simp only [visitList, if_pos hd]
    exact ih hnd hkeys hfuel
  | case3 f cb path done t rest hd hp =>
    intro _ _ _
    simp [visitList, if_neg hd, if_pos hp]
  | case4 f cb path done t rest hd hp hr =>
    intro _ _ _
    simp [visitList, if_neg hd, if_neg hp, hr]
  | case5 cb path done t rest hd hp r hr =>
    intro hnd hkeys hfuel
    have htk : t ∈ cb.keysOf := mem_keysOf_of_findRecipe hr
    have hnd₂ : (t :: path).Nodup := List.nodup_cons.2 ⟨hp, hnd⟩
    have hsub : t :: path ⊆ cb.keysOf := by
      intro y hy
      rcases List.mem_cons.1 hy with hy₁ | hy₁
      · exact hy₁ ▸ htk
      · exact hkeys y hy₁
    have := length_le_dedup hnd₂ hsub
    simp only [List.length_cons] at this
    omega
  | case6 cb path done t rest hd hp r hr f' dsub hsub ihsub ihrest =>
    intro hnd hkeys hfuel
    simp only [visitList, if_neg hd, if_neg hp, hr, hsub]
    exact ihrest hnd hkeys hfuel
  | case7 cb path done t rest hd hp r hr f' hnotok ihsub =>
    intro hnd hkeys hfuel
    simp only [visitList, if_neg hd, if_neg hp, hr]
    have htk : t ∈ cb.keysOf := mem_keysOf_of_findRecipe hr
    have hnd₂ : (t :: path).Nodup := List.nodup_cons.2 ⟨hp, hnd⟩
    have hkeys₂ : ∀ p ∈ t :: path, p ∈ cb.keysOf := by
      intro y hy
      rcases List.mem_cons.1 hy with hy₁ | hy₁
      · exact hy₁ ▸ htk
      · exact hkeys y hy₁
    have hfuel₂ : cb.keysOf.dedup.length ≤ f' + (t :: path).length := by
      simp only [List.length_cons]
      omega
    have hinner := ihsub hnd₂ hkeys₂ hfuel₂
    rcases hres : visitList f' cb (t :: path) done r.deps with ⟨res₁, dsub₁⟩
    rw [hres] at hinner
    cases res₁ with
    | ok => exact absurd hres (fun hc => hnotok dsub₁ hc)
    | missing z => simp
    | cyclic z => simp
    | fuelOut => exact absurd rfl hinner

/-- Completeness of the walk: over a covered, cycle-free reachable
graph, the walk succeeds (given the standing path invariants). -/
theorem visit_complete (f : Nat) (cb : CookBook) (path done ts : List Nat) :
    (∀ y ∈ ts, Reachable cb y) →
    (∀ p ∈ path, Reachable cb p) →
    List.Chain' (fun a b => Edge cb b a) path →
    (∀ p, path.head? = some p → ∀ x ∈ ts, Edge cb p x) →
    (∀ t : Nat, Reachable cb t → ∃ r : Recipe, cb.findRecipe t = some r) →
    (∀ t : Nat, Reachable cb t → ¬ Relation.TransGen (Edge cb) t t) →
    path.Nodup → (∀ p ∈ path, p ∈ cb.keysOf) →
    cb.keysOf.dedup.length ≤ f + path.length →
    (visitList f cb path done ts).1 = .ok := by
  induction f, cb, path, done, ts using visitList.induct with
  | case1 f cb path done =>
    intro _ _ _ _ _ _ _ _ _
    simp [visitList]
  | case2 f cb path done t rest hd ih =>
    intro hts hpath hchain hhead hcov hacyc hnd hkeys hfuel
    simp only [visitList, if_pos hd]
    exact ih (fun y hy => hts y (List.mem_cons_of_mem _ hy)) hpath hchain
      (fun p hp x hx => hhead p hp x (List.mem_cons_of_mem _ hx))
      hcov hacyc hnd hkeys hfuel
  | case3 f cb path done t rest hd hp =>
    intro hts hpath hchain hhead hcov hacyc hnd hkeys hfuel
    exfalso
    rcases hpe : path with _ | ⟨p, path'⟩
    · rw [hpe] at hp
      cases hp
    · rw [hpe] at hp hchain
      have hrtg : Relation.ReflTransGen (Edge cb) t p :=
        chain_rtg p path' hchain t hp
      have hedge : Edge cb p t := by
        apply hhead p
        · rw [hpe]
          rfl
        · exact List.mem_cons_self t rest
      have hcyc : Relation.TransGen (Edge cb) t t :=
        Relation.TransGen.tail' hrtg hedge
      exact hacyc t (hts t (List.mem_cons_self t rest)) hcyc
  | case4 f cb path done t rest hd hp hr =>
    intro hts hpath hchain hhead hcov hacyc hnd hkeys hfuel
    exfalso
    rcases hcov t (hts t (List.mem_cons_self t rest)) with ⟨r, hr₁⟩
    exact absurd (hr.symm.trans hr₁) (by simp)
  | case5 cb path done t rest hd hp r hr =>
    intro hts hpath hchain hhead hcov hacyc hnd hkeys hfuel
    exfalso
    have htk : t ∈ cb.keysOf := mem_keysOf_of_findRecipe hr
    have hnd₂ : (t :: path).Nodup := List.nodup_cons.2 ⟨hp, hnd⟩
    have hsub : t :: path ⊆ cb.keysOf := by
      intro y hy
      rcases List.mem_cons.1 hy with hy₁ | hy₁
      · exact hy₁ ▸ htk
      · exact hkeys y hy₁
    have := length_le_dedup hnd₂ hsub
    simp only [List.length_cons] at this
    omega
  | case6 cb path done t rest hd hp r hr f' dsub hsub ihsub ihrest =>
    intro hts hpath hchain hhead hcov hacyc hnd hkeys hfuel
    simp only [visitList, if_neg hd, if_neg hp, hr, hsub]
    exact ihrest (fun y hy => hts y (List.mem_cons_of_mem _ hy)) hpath hchain
      (fun p hp₁ x hx => hhead p hp₁ x (List.mem_cons_of_mem _ hx))
      hcov hacyc hnd hkeys hfuel
  | case7 cb path done t rest hd hp r hr f' hnotok ihsub =>
    intro hts hpath hchain hhead hcov hacyc hnd hkeys hfuel
    exfalso
    have htreach : Reachable cb t := hts t (List.mem_cons_self t rest)
    have hdeps : ∀ y ∈ r.deps, Reachable cb y := by
      intro y hy
      exact Reachable.step t y r htreach hr hy
    have hpath₂ : ∀ p ∈ t :: path, Reachable cb p := by
      intro y hy
      rcases List.mem_cons.1 hy with hy₁ | hy₁
      · exact hy₁ ▸ htreach
      · exact hpath y hy₁
    have hchain₂ : List.Chain' (fun a b => Edge cb b a) (t :: path) := by
      rcases hpe : path with _ | ⟨p, path'⟩
      · simp
      · rw [hpe] at hchain
        refine List.chain'_cons.2 ⟨?_, hchain⟩
        apply hhead p
        · rw [hpe]
          rfl
        · exact List.mem_cons_self t rest
    have hhead₂ : ∀ p, (t :: path).head? = some p → ∀ x ∈ r.deps, Edge cb p x := by
      intro p hpeq x hx
      have : p = t := by
        simp only [List.head?_cons, Option.some.injEq] at hpeq
        exact hpeq.symm
      exact this ▸ ⟨r, hr, hx⟩
    have htk : t ∈ cb.keysOf := mem_keysOf_of_findRecipe hr
    have hnd₂ : (t :: path).Nodup := List.nodup_cons.2 ⟨hp, hnd⟩
    have hkeys₂ : ∀ p ∈ t :: path, p ∈ cb.keysOf := by
      intro y hy
      rcases List.mem_cons.1 hy with hy₁ | hy₁
      · exact hy₁ ▸ htk
      · exact hkeys y hy₁
    have hfuel₂ : cb.keysOf.dedup.length ≤ f' + (t :: path).length := by
      simp only [List.length_cons]
      omega
    have hinner := ihsub hdeps hpath₂ hchain₂ hhead₂ hcov hacyc hnd₂ hkeys₂ hfuel₂
    rcases hres : visitList f' cb (t :: path) done r.deps with ⟨res₁, dsub₁⟩
    rw [hres] at hinner
    simp only at hinner
    subst hinner
    exact hnotok dsub₁ hres

/-- The depth budget chosen by `checkCompleteness` dominates the number
of distinct Recipe keys. -/
theorem dedup_le_budget (cb : CookBook) :
    cb.keysOf.dedup.length ≤ (cb.recipes.length + 1) + ([] : List Nat).length := by
  have h₁ : cb.keysOf.dedup.length ≤ cb.keysOf.length :=
    (List.dedup_sublist cb.keysOf).length_le
  have h₂ : cb.keysOf.length = cb.recipes.length := List.length_map _ _
  simp only [List.length_nil]
  omega

/-- Completeness: full transitive coverage plus a cycle-free reachable
graph make `checkCompleteness` succeed. -/
theorem checkCompleteness_complete {cb : CookBook}
    (hcov : ∀ t : Nat, Reachable cb t → ∃ r : Recipe, cb.findRecipe t = some r)
    (hacyc : ∀ t : Nat, Reachable cb t → ¬ Relation.TransGen (Edge cb) t t) :
    cb.checkCompleteness = .ok := by
  unfold CookBook.checkCompleteness
  exact visit_complete (cb.recipes.length + 1) cb [] [] cb.requiredExports
    (fun y hy => Reachable.base y hy)
    (fun p hp => absurd hp (List.not_mem_nil p))
    List.chain'_nil
    (fun p hp => by cases hp)
    hcov hacyc List.nodup_nil
    (fun p hp => absurd hp (List.not_mem_nil p))
    (dedup_le_budget cb)

/-- Termination of the walk: the depth budget never runs out, on any
CookBook whatsoever. -/
theorem checkCompleteness_no_fuelOut (cb : CookBook) :
    cb.checkCompleteness ≠ .fuelOut := by
  unfold CookBook.checkCompleteness
  exact visit_no_fuelOut (cb.recipes.length + 1) cb [] [] cb.requiredExports
    List.nodup_nil (fun p hp => absurd hp (List.not_mem_nil p))
    (dedup_le_budget cb)

/-- A `missing` outcome of `checkCompleteness` names a reachable type
without a Recipe. -/
theorem checkCompleteness_missing_elim {cb : CookBook} {x : Nat}
    (h : cb.checkCompleteness = .missing x) :
    Reachable cb x ∧ cb.findRecipe x = none := by
  unfold CookBook.checkCompleteness at h
  rcases hres : visitList (cb.recipes.length + 1) cb [] [] cb.requiredExports with ⟨res, D⟩
  rw [hres] at h
  simp only at h
  subst h
  exact visit_missing (cb.recipes.length + 1) cb [] [] cb.requiredExports x D hres
    (fun y hy => Reachable.base y hy)

/-- With full coverage, a reachable dependency cycle forces the walk to
end in the distinct `cyclic` condition. -/
theorem cyclic_of_reachable_cycle {cb : CookBook} {c : Nat}
    (hreach : Reachable cb c) (hcyc : Relation.TransGen (Edge cb) c c)
    (hcov : ∀ t : Nat, Reachable cb t → ∃ r : Recipe, cb.findRecipe t = some r) :
    ∃ x : Nat, cb.checkCompleteness = .cyclic x := by
  rcases hres : cb.checkCompleteness with _ | x | x | _
  · exact absurd hcyc (ok_acyclic hres c hreach)
  · rcases checkCompleteness_missing_elim hres with ⟨hx₁, hx₂⟩
    rcases hcov x hx₁ with ⟨r, hr⟩
    exact absurd (hx₂.symm.trans hr) (by simp)
  · exact ⟨x, rfl⟩
  · exact absurd hres (checkCompleteness_no_fuelOut cb)

/-- Looking up a Recipe after removing the producer of `x`: `x` itself
is gone, every other type is unaffected. -/
theorem findRecipe_removeRecipe (cb : CookBook) (x y : Nat) :
    (removeRecipe cb x).findRecipe y =
      if y = x then none else cb.findRecipe y := by
  unfold removeRecipe CookBook.findRecipe
  simp only
  by_cases hyx : y = x
  · subst hyx
    rw [if_pos rfl]
    have : List.find? (fun p => p.1 == y) (cb.recipes.filter (fun p => !(p.1 == y))) = none := by
      rw [List.find?_eq_none]
      intro a ha
      have := List.of_mem_filter ha
      simpa using this
    rw [this]
    rfl
  · rw [if_neg hyx]
    congr 1
    induction cb.recipes with
    | nil => rfl
    | cons p rest ih =>
      by_cases hpx : p.1 = x
      · have hfind : (p.1 == y) = false := by
          simp only [beq_eq_false_iff_ne, ne_eq]
          intro hc
          exact hyx (hc ▸ hpx ▸ rfl)
        have h₁ : List.filter (fun q => !(q.1 == x)) (p :: rest) =
            List.filter (fun q => !(q.1 == x)) rest := by
          simp [List.filter_cons, hpx]
        have h₂ : List.find? (fun q => q.1 == y) (p :: rest) =
            List.find? (fun q => q.1 == y) rest := by
          simp [List.find?_cons, hfind]
        rw [h₁, h₂]
        exact ih
      · have hkeep : (!(p.1 == x)) = true := by simp [hpx]
        have h₁ : List.filter (fun q => !(q.1 == x)) (p :: rest) =
            p :: List.filter (fun q => !(q.1 == x)) rest := by
          simp [List.filter_cons, hpx]
        rw [h₁]
        by_cases hpy : (p.1 == y) = true
        · rw [List.find?_cons, List.find?_cons, hpy]
        · have hpy₂ : (p.1 == y) = false := by
            simpa using hpy
          rw [List.find?_cons, List.find?_cons, hpy₂]
          simp only
          exact ih

/-- Reachability survives removing the producer of `x`, except that the
walk may now stop at `x` itself. -/
theorem reachable_removeRecipe {cb : CookBook} {x u : Nat}
    (h : Reachable cb u) :
    Reachable (removeRecipe cb x) u ∨ Reachable (removeRecipe cb x) x := by
  induction h with
  | base t ht => exact Or.inl (Reachable.base t ht)
  | step a b r _ hr hb iha =>
    rcases iha with ha | ha
    · by_cases hax : a = x
      · exact Or.inr (hax ▸ ha)
      · refine Or.inl (Reachable.step a b r ha ?_ hb)
        rw [findRecipe_removeRecipe, if_neg hax]
        exact hr
    · exact Or.inr ha

/-- Removing the producing Recipe of any reachable type flips a
succeeding completeness check into a failing one. -/
theorem removeRecipe_breaks {cb : CookBook} {t : Nat}
    (_hok : cb.checkCompleteness = .ok) (hreach : Reachable cb t) :
    (removeRecipe cb t).checkCompleteness ≠ .ok := by
  intro hok₂
  have hreach₂ : Reachable (removeRecipe cb t) t := by
    rcases reachable_removeRecipe (x := t) hreach with h | h
    · exact h
    · exact h
  rcases ok_coverage hok₂ t hreach₂ with ⟨r, hr⟩
  rw [findRecipe_removeRecipe, if_pos rfl] at hr
  cases hr

/-- `MonoState` is reflexive. -/
theorem mono_refl (s : MState) : MonoState s s :=
  ⟨Nat.le_refl _, fun _ h => h, fun _ => Nat.le_refl _⟩

/-- `MonoState` is transitive. -/
theorem mono_trans {a b c : MState} (h₁ : MonoState a b) (h₂ : MonoState b c) :
    MonoState a c :=
  ⟨Nat.le_trans h₁.1 h₂.1, fun k hk => h₂.2.1 k (h₁.2.1 k hk),
    fun k => Nat.le_trans (h₁.2.2 k) (h₂.2.2 k)⟩

/-- Cache lookup through a freshly inserted binding. -/
theorem lookupCache_cons (a v : Nat) (c : List (Nat × Nat)) (k : Nat) :
    lookupCache ((a, v) :: c) k = if a = k then some v else lookupCache c k := by
  unfold lookupCache
  rw [List.find?_cons]
  by_cases hak : a = k
  · simp [hak]
  · have hne : ((a, v).1 == k) = false := by simpa using hak
    simp [hne, hak]

/-- Resolution through `getList` evolves the state monotonically (and so
does each individual `getT`, see `getT_mono`). -/
theorem getList_mono (f : Nat) (cb : CookBook) (ds : List Nat) (s : MState) :
    ∀ res s₁, getList f cb ds s = (res, s₁) → MonoState s s₁ := by
  refine getList.induct
    (fun f cb t s => ∀ res s₁, getT f cb t s = (res, s₁) → MonoState s s₁)
    (fun f cb ds s => ∀ res s₁, getList f cb ds s = (res, s₁) → MonoState s s₁)
    ?_ ?_ ?_ ?_ ?_ ?_ ?_ ?_ ?_ ?_ ?_ ?_ f cb ds s
  · intro fuel cb t s hr res s₁ h
    simp only [getT, hr] at h
    injection h with h₁ h₂
    exact h₂ ▸ mono_refl s
  · intro fuel cb t s r hr hsing v hv res s₁ h
    simp only [getT, hr, hsing, hv] at h
    injection h with h₁ h₂
    exact h₂ ▸ mono_refl s
  · intro cb t s r hr hsing hcache res s₁ h
    simp only [getT, hr, hsing, hcache] at h
    injection h with h₁ h₂
    exact h₂ ▸ mono_refl s
  · intro cb t s r hr hsing hcache f' val s₁ hdeps ih res s₂ h
    simp only [getT, hr, hsing, hcache, hdeps] at h
    injection h with h₁ h₂
    refine mono_trans (ih _ _ hdeps) ?_
    subst h₂
    refine ⟨Nat.le_succ _, ?_, ?_⟩
    · intro k hk
      simp only [lookupCache_cons]
      by_cases htk : t = k
      · simp [htk]
      · simpa [htk] using hk
    · intro k
      simp only [countC, List.count_append]
      omega
  · intro cb t s r hr hsing hcache f' s₁ hdeps ih res s₂ h
    simp only [getT, hr, hsing, hcache, hdeps] at h
    injection h with h₁ h₂
    exact h₂ ▸ ih _ _ hdeps
  · intro cb t s r hr htr res s₁ h
    simp only [getT, hr, htr] at h
    injection h with h₁ h₂
    exact h₂ ▸ mono_refl s
  · intro cb t s r hr htr f' val s₁ hdeps ih res s₂ h
    simp only [getT, hr, htr, hdeps] at h
    injection h with h₁ h₂
    refine mono_trans (ih _ _ hdeps) ?_
    subst h₂
    refine ⟨Nat.le_succ _, fun k hk => hk, ?_⟩
    intro k
    simp only [countC, List.count_append]
    omega
  · intro cb t s r hr htr f' s₁ hdeps ih res s₂ h
    simp only [getT, hr, htr, hdeps] at h
    injection h with h₁ h₂
    exact h₂ ▸ ih _ _ hdeps
  · intro fuel cb s res s₁ h
    simp only [getList] at h
    injection h with h₁ h₂
    exact h₂ ▸ mono_refl s
  · intro fuel cb d rest s v s₁ hd val s₂ hrest ih₁ ih₂ res s₃ h
    simp only [getList, hd, hrest] at h
    injection h with h₁ h₂
    exact h₂ ▸ mono_trans (ih₁ _ _ hd) (ih₂ _ _ hrest)
  · intro fuel cb d rest s v s₁ hd s₂ hrest ih₁ ih₂ res s₃ h
    simp only [getList, hd, hrest] at h
    injection h with h₁ h₂
    exact h₂ ▸ mono_trans (ih₁ _ _ hd) (ih₂ _ _ hrest)
  · intro fuel cb d rest s s₁ hd ih₁ res s₂ h
    simp only [getList, hd] at h
    injection h with h₁ h₂
    exact h₂ ▸ ih₁ _ _ hd

/-- A single `getT` call evolves the state monotonically. -/
theorem getT_mono {f : Nat} {cb : CookBook} {t : Nat} {s : MState}
    {res : Option Nat} {s₁ : MState} (h : getT f cb t s = (res, s₁)) :
    MonoState s s₁ := by
  rcases res with _ | v
  · have hl : getList f cb [t] s = (none, s₁) := by
      simp [getList, h]
    exact getList_mono f cb [t] s _ _ hl
  · have hl : getList f cb [t] s = (some [v], s₁) := by
      simp [getList, h]
    exact getList_mono f cb [t] s _ _ hl

/-- New cache entries written during dependency resolution belong to
types reachable from the resolved list. -/
theorem getList_cache_reach (f : Nat) (cb : CookBook) (ds : List Nat) (s : MState) :
    ∀ res s₁, getList f cb ds s = (res, s₁) →
      ∀ k : Nat, lookupCache s₁.cache k ≠ lookupCache s.cache k →
        ∃ d ∈ ds, Relation.ReflTransGen (Edge cb) d k := by
  refine getList.induct
    (fun f cb t s => ∀ res s₁, getT f cb t s = (res, s₁) →
      ∀ k : Nat, lookupCache s₁.cache k ≠ lookupCache s.cache k →
        Relation.ReflTransGen (Edge cb) t k)
    (fun f cb ds s => ∀ res s₁, getList f cb ds s = (res, s₁) →
      ∀ k : Nat, lookupCache s₁.cache k ≠ lookupCache s.cache k →
        ∃ d ∈ ds, Relation.ReflTransGen (Edge cb) d k)
    ?_ ?_ ?_ ?_ ?_ ?_ ?_ ?_ ?_ ?_ ?_ ?_ f cb ds s
  · intro fuel cb t s hr res s₁ h k hne
    simp only [getT, hr] at h
    injection h with h₁ h₂
    exact absurd (h₂ ▸ rfl) hne
  · intro fuel cb t s r hr hsing v hv res s₁ h k hne
    simp only [getT, hr, hsing, hv] at h
    injection h with h₁ h₂
    exact absurd (h₂ ▸ rfl) hne
  · intro cb t s r hr hsing hcache res s₁ h k hne
    simp only [getT, hr, hsing, hcache] at h
    injection h with h₁ h₂
    exact absurd (h₂ ▸ rfl) hne
  · intro cb t s r hr hsing hcache f' val s₁ hdeps ih res s₂ h k hne
    simp only [getT, hr, hsing, hcache, hdeps] at h
    injection h with h₁ h₂
    subst h₂
    by_cases htk : t = k
    · exact htk ▸ Relation.ReflTransGen.refl
    · have hlook : lookupCache ((t, s₁.nextId) :: s₁.cache) k = lookupCache s₁.cache k := by
        rw [lookupCache_cons, if_neg htk]
      rw [hlook] at hne
      rcases ih _ _ hdeps k hne with ⟨d, hd, hrtg⟩
      exact Relation.ReflTransGen.head ⟨r, hr, hd⟩ hrtg
  · intro cb t s r hr hsing hcache f' s₁ hdeps ih res s₂ h k hne
    simp only [getT, hr, hsing, hcache, hdeps] at h
    injection h with h₁ h₂
    subst h₂
    rcases ih _ _ hdeps k hne with ⟨d, hd, hrtg⟩
    exact Relation.ReflTransGen.head ⟨r, hr, hd⟩ hrtg
  · intro cb t s r hr htr res s₁ h k hne
    simp only [getT, hr, htr] at h
    injection h with h₁ h₂
    exact absurd (h₂ ▸ rfl) hne
  · intro cb t s r hr htr f' val s₁ hdeps ih res s₂ h k hne
    simp only [getT, hr, htr, hdeps] at h
    injection h with h₁ h₂
    subst h₂
    rcases ih _ _ hdeps k hne with ⟨d, hd, hrtg⟩
    exact Relation.ReflTransGen.head ⟨r, hr, hd⟩ hrtg
  · intro cb t s r hr htr f' s₁ hdeps ih res s₂ h k hne
    simp only [getT, hr, htr, hdeps] at h
    injection h with h₁ h₂
    subst h₂
    rcases ih _ _ hdeps k hne with ⟨d, hd, hrtg⟩
    exact Relation.ReflTransGen.head ⟨r, hr, hd⟩ hrtg
  · intro fuel cb s res s₁ h k hne
    simp only [getList] at h
    injection h with h₁ h₂
    exact absurd (h₂ ▸ rfl) hne
  · intro fuel cb d rest s v s₁ hd val s₂ hrest ih₁ ih₂ res s₃ h k hne
    simp only [getList, hd, hrest] at h
    injection h with h₁ h₂
    subst h₂
    by_cases hmid : lookupCache s₁.cache k = lookupCache s.cache k
    · rw [← hmid] at hne
      rcases ih₂ _ _ hrest k hne with ⟨e, he, hrtg⟩
      exact ⟨e, List.mem_cons_of_mem _ he, hrtg⟩
    · exact ⟨d, List.mem_cons_self d rest, ih₁ _ _ hd k hmid⟩
  · intro fuel cb d rest s v s₁ hd s₂ hrest ih₁ ih₂ res s₃ h k hne
    simp only [getList, hd, hrest] at h
    injection h with h₁ h₂
    subst h₂
    by_cases hmid : lookupCache s₁.cache k = lookupCache s.cache k
    · rw [← hmid] at hne
      rcases ih₂ _ _ hrest k hne with ⟨e, he, hrtg⟩
      exact ⟨e, List.mem_cons_of_mem _ he, hrtg⟩
    · exact ⟨d, List.mem_cons_self d rest, ih₁ _ _ hd k hmid⟩
  · intro fuel cb d rest s s₁ hd ih₁ res s₂ h k hne
    simp only [getList, hd] at h
    injection h with h₁ h₂
    subst h₂
    exact ⟨d, List.mem_cons_self d rest, ih₁ _ _ hd k hne⟩

/-- Per-singleton construction accounting: along any dependency
resolution over a cycle-free reachable graph, the number of
construct-function invocations for a singleton type is bounded by the
type's transition from uncached to cached — hence at most one. -/
theorem getList_once (f : Nat) (cb : CookBook) (ds : List Nat) (s : MState) :
    (∀ d ∈ ds, Reachable cb d) →
    (∀ w : Nat, Reachable cb w → ¬ Relation.TransGen (Edge cb) w w) →
    ∀ res s₁, getList f cb ds s = (res, s₁) →
      ∀ k rk, cb.findRecipe k = some rk → rk.lifetime = .singleton →
        countC s₁ k + cacheInd s k ≤ countC s k + cacheInd s₁ k := by
  refine getList.induct
    (fun f cb t s => Reachable cb t →
      (∀ w : Nat, Reachable cb w → ¬ Relation.TransGen (Edge cb) w w) →
      ∀ res s₁, getT f cb t s = (res, s₁) →
        ∀ k rk, cb.findRecipe k = some rk → rk.lifetime = .singleton →
          countC s₁ k + cacheInd s k ≤ countC s k + cacheInd s₁ k)
    (fun f cb ds s => (∀ d ∈ ds, Reachable cb d) →
      (∀ w : Nat, Reachable cb w → ¬ Relation.TransGen (Edge cb) w w) →
      ∀ res s₁, getList f cb ds s = (res, s₁) →
        ∀ k rk, cb.findRecipe k = some rk → rk.lifetime = .singleton →
          countC s₁ k + cacheInd s k ≤ countC s k + cacheInd s₁ k)
    ?_ ?_ ?_ ?_ ?_ ?_ ?_ ?_ ?_ ?_ ?_ ?_ f cb ds s
  · intro fuel cb t s hr _ _ res s₁ h k rk hk hks
    simp only [getT, hr] at h
    injection h with h₁ h₂
    subst h₂
    exact Nat.le_refl _
  · intro fuel cb t s r hr hsing v hv _ _ res s₁ h k rk hk hks
    simp only [getT, hr, hsing, hv] at h
    injection h with h₁ h₂
    subst h₂
    exact Nat.le_refl _
  · intro cb t s r hr hsing hcache _ _ res s₁ h k rk hk hks
    simp only [getT, hr, hsing, hcache] at h
    injection h with h₁ h₂
    subst h₂
    exact Nat.le_refl _
  · intro cb t s r hr hsing hcache f' val s₁ hdeps ih hreach hacyc res s₂ h k rk hk hks
    simp only [getT, hr, hsing, hcache, hdeps] at h
    injection h with h₁ h₂
    subst h₂
    have hdreach : ∀ d ∈ r.deps, Reachable cb d := by
      intro d hd
      exact Reachable.step t d r hreach hr hd
    have hih := ih hdreach hacyc _ _ hdeps k rk hk hks
    by_cases htk : t = k
    · subst htk
      have hind₀ : cacheInd s t = 0 := by
        simp [cacheInd, hcache]
      have hmid₀ : cacheInd s₁ t = 0 := by
        by_contra hne
        have hsome : (lookupCache s₁.cache t).isSome = true := by
          rcases hl : lookupCache s₁.cache t with _ | w
          · exact absurd (by simp [cacheInd, hl]) hne
          · rfl
        have hne₂ : lookupCache s₁.cache t ≠ lookupCache s.cache t := by
          rw [hcache]
          intro hc
          rw [hc] at hsome
          cases hsome
        rcases getList_cache_reach f' cb r.deps s _ _ hdeps t hne₂ with ⟨d, hd, hrtg⟩
        exact hacyc t hreach (Relation.TransGen.head' ⟨r, hr, hd⟩ hrtg)
      have hcount : countC ⟨(t, s₁.nextId) :: s₁.cache, s₁.nextId + 1,
          s₁.constructions ++ [t]⟩ t = countC s₁ t + 1 := by
        simp [countC, List.count_append]
      have hindNew : cacheInd ⟨(t, s₁.nextId) :: s₁.cache, s₁.nextId + 1,
          s₁.constructions ++ [t]⟩ t = 1 := by
        simp [cacheInd, lookupCache_cons]
      rw [hcount, hindNew, hind₀]
      rw [hind₀, hmid₀] at hih
      omega
    · have hcount : countC ⟨(t, s₁.nextId) :: s₁.cache, s₁.nextId + 1,
          s₁.constructions ++ [t]⟩ k = countC s₁ k := by
        simp only [countC, List.count_append]
        have : List.count k [t] = 0 := by
          simp [List.count_singleton]
          exact fun hc => htk hc
        simp [this]
      have hind : cacheInd ⟨(t, s₁.nextId) :: s₁.cache, s₁.nextId + 1,
          s₁.constructions ++ [t]⟩ k = cacheInd s₁ k := by
        simp [cacheInd, lookupCache_cons, htk]
      rw [hcount, hind]
      exact hih
  · intro cb t s r hr hsing hcache f' s₁ hdeps ih hreach hacyc res s₂ h k rk hk hks
    simp only [getT, hr, hsing, hcache, hdeps] at h
    injection h with h₁ h₂
    subst h₂
    have hdreach : ∀ d ∈ r.deps, Reachable cb d := by
      intro d hd
      exact Reachable.step t d r hreach hr hd
    exact ih hdreach hacyc _ _ hdeps k rk hk hks
  · intro cb t s r hr htr _ _ res s₁ h k rk hk hks
    simp only [getT, hr, htr] at h
    injection h with h₁ h₂
    subst h₂
    exact Nat.le_refl _
  · intro cb t s r hr htr f' val s₁ hdeps ih hreach hacyc res s₂ h k rk hk hks
    simp only [getT, hr, htr, hdeps] at h
    injection h with h₁ h₂
    subst h₂
    have hdreach : ∀ d ∈ r.deps, Reachable cb d := by
      intro d hd
      exact Reachable.step t d r hreach hr hd
    have hih := ih hdreach hacyc _ _ hdeps k rk hk hks
    have htk : t ≠ k := by
      intro hc
      subst hc
      have : rk = r := Option.some.inj (hk.symm.trans hr)
      rw [this, htr] at hks
      cases hks
    have hcount : countC ⟨s₁.cache, s₁.nextId + 1, s₁.constructions ++ [t]⟩ k =
        countC s₁ k := by
      simp only [countC, List.count_append]
      have : List.count k [t] = 0 := by
        simp [List.count_singleton]
        exact fun hc => htk hc
      simp [this]
    have hind : cacheInd ⟨s₁.cache, s₁.nextId + 1, s₁.constructions ++ [t]⟩ k =
        cacheInd s₁ k := by
      simp [cacheInd]
    rw [hcount, hind]
    exact hih
  · intro cb t s r hr htr f' s₁ hdeps ih hreach hacyc res s₂ h k rk hk hks
    simp only [getT, hr, htr, hdeps] at h
    injection h with h₁ h₂
    subst h₂
    have hdreach : ∀ d ∈ r.deps, Reachable cb d := by
      intro d hd
      exact Reachable.step t d r hreach hr hd
    exact ih hdreach hacyc _ _ hdeps k rk hk hks
  · intro fuel cb s _ _ res s₁ h k rk hk hks
    simp only [getList] at h
    injection h with h₁ h₂
    subst h₂
    exact Nat.le_refl _
  · intro fuel cb d rest s v s₁ hd val s₂ hrest ih₁ ih₂ hreach hacyc res s₃ h k rk hk hks
    simp only [getList, hd, hrest] at h
    injection h with h₁ h₂
    subst h₂
    have h₁ := ih₁ (hreach d (List.mem_cons_self d rest)) hacyc _ _ hd k rk hk hks
    have h₂ := ih₂ (fun e he => hreach e (List.mem_cons_of_mem _ he)) hacyc _ _ hrest k rk hk hks
    omega
  · intro fuel cb d rest s v s₁ hd s₂ hrest ih₁ ih₂ hreach hacyc res s₃ h k rk hk hks
    simp only [getList, hd, hrest] at h
    injection h with h₁ h₂
    subst h₂
    have h₁ := ih₁ (hreach d (List.mem_cons_self d rest)) hacyc _ _ hd k rk hk hks
    have h₂ := ih₂ (fun e he => hreach e (List.mem_cons_of_mem _ he)) hacyc _ _ hrest k rk hk hks
    omega
  · intro fuel cb d rest s s₁ hd ih₁ hreach hacyc res s₂ h k rk hk hks
    simp only [getList, hd] at h
    injection h with h₁ h₂
    subst h₂
    exact ih₁ (hreach d (List.mem_cons_self d rest)) hacyc _ _ hd k rk hk hks

/-- At-most-once accounting for a single `getT` call. -/
theorem getT_once {f : Nat} {cb : CookBook} {t : Nat} {s : MState}
    {res : Option Nat} {s₁ : MState}
    (hreach : Reachable cb t)
    (hacyc : ∀ w : Nat, Reachable cb w → ¬ Relation.TransGen (Edge cb) w w)
    (h : getT f cb t s = (res, s₁)) :
    ∀ k rk, cb.findRecipe k = some rk → rk.lifetime = .singleton →
      countC s₁ k + cacheInd s k ≤ countC s k + cacheInd s₁ k := by
  have hds : ∀ d ∈ [t], Reachable cb d := by
    intro d hd
    rcases List.mem_cons.1 hd with hd₁ | hd₁
    · exact hd₁ ▸ hreach
    · cases hd₁
  rcases res with _ | v
  · have hl : getList f cb [t] s = (none, s₁) := by
      simp [getList, h]
    exact getList_once f cb [t] s hds hacyc _ _ hl
  · have hl : getList f cb [t] s = (some [v], s₁) := by
      simp [getList, h]
    exact getList_once f cb [t] s hds hacyc _ _ hl

/-- A successful singleton `get` leaves the instance in the cache. -/
theorem getT_singleton_caches {f : Nat} {cb : CookBook} {t : Nat} {s : MState}
    {r : Recipe} {v : Nat} {s₁ : MState}
    (hr : cb.findRecipe t = some r) (hsing : r.lifetime = .singleton)
    (h : getT f cb t s = (some v, s₁)) :
    lookupCache s₁.cache t = some v := by
  rcases hc : lookupCache s.cache t with _ | w
  · cases f with
    | zero =>
      simp only [getT, hr, hsing, hc] at h
      injection h with h₁ h₂
      cases h₁
    | succ f' =>
      rcases hdeps : getList f' cb r.deps s with ⟨dres, s₂⟩
      cases dres with
      | none =>
        simp only [getT, hr, hsing, hc, hdeps] at h
        injection h with h₁ h₂
        cases h₁
      | some val =>
        simp only [getT, hr, hsing, hc, hdeps] at h
        injection h with h₁ h₂
        have hv : s₂.nextId = v := Option.some.inj h₁
        rw [← h₂, lookupCache_cons, if_pos rfl, hv]
  · simp only [getT, hr, hsing, hc] at h
    injection h with h₁ h₂
    rw [← h₂, hc, Option.some.inj h₁]

/-- A cached singleton `get` is a no-op returning the cached instance,
with any depth budget. -/
theorem getT_singleton_cached_noop {cb : CookBook} {t : Nat} {s : MState}
    {r : Recipe} {v : Nat}
    (hr : cb.findRecipe t = some r) (hsing : r.lifetime = .singleton)
    (hc : lookupCache s.cache t = some v) (f : Nat) :
    getT f cb t s = (some v, s) := by
  simp [getT, hr, hsing, hc]

/-- After a successful singleton `get`, every further `get` for the same
type returns the identical instance and leaves the state untouched. -/
theorem getT_singleton_repeat {f : Nat} {cb : CookBook} {t : Nat} {s : MState}
    {r : Recipe} {v : Nat} {s₁ : MState}
    (hr : cb.findRecipe t = some r) (hsing : r.lifetime = .singleton)
    (h : getT f cb t s = (some v, s₁)) (f₂ : Nat) :
    getT f₂ cb t s₁ = (some v, s₁) :=
  getT_singleton_cached_noop hr hsing (getT_singleton_caches hr hsing h) f₂

/-- A successful singleton `get` on an uncached type logs at least one
construction of that type. -/
theorem getT_singleton_constructs {f : Nat} {cb : CookBook} {t : Nat} {s : MState}
    {r : Recipe} {v : Nat} {s₁ : MState}
    (hr : cb.findRecipe t = some r) (hsing : r.lifetime = .singleton)
    (hc : lookupCache s.cache t = none)
    (h : getT f cb t s = (some v, s₁)) :
    countC s t + 1 ≤ countC s₁ t := by
  cases f with
  | zero =>
    simp only [getT, hr, hsing, hc] at h
    injection h with h₁ h₂
    cases h₁
  | succ f' =>
    rcases hdeps : getList f' cb r.deps s with ⟨dres, s₂⟩
    cases dres with
    | none =>
      simp only [getT, hr, hsing, hc, hdeps] at h
      injection h with h₁ h₂
      cases h₁
    | some val =>
      simp only [getT, hr, hsing, hc, hdeps] at h
      injection h with h₁ h₂
      have hmono := getList_mono f' cb r.deps s _ _ hdeps
      have hcount : countC s₁ t = countC s₂ t + 1 := by
        rw [← h₂]
        simp [countC, List.count_append]
      have := hmono.2.2 t
      omega

/-- A successful transient `get` allocates a fresh instance identity and
logs a new construction: the result is never served from the cache. -/
theorem getT_transient_fresh {f : Nat} {cb : CookBook} {t : Nat} {s : MState}
    {r : Recipe} {v : Nat} {s₁ : MState}
    (hr : cb.findRecipe t = some r) (htr : r.lifetime = .transient)
    (h : getT f cb t s = (some v, s₁)) :
    s.nextId ≤ v ∧ s₁.nextId = v + 1 ∧ countC s t + 1 ≤ countC s₁ t := by
  cases f with
  | zero =>
    simp only [getT, hr, htr] at h
    injection h with h₁ h₂
    cases h₁
  | succ f' =>
    rcases hdeps : getList f' cb r.deps s with ⟨dres, s₂⟩
    cases dres with
    | none =>
      simp only [getT, hr, htr, hdeps] at h
      injection h with h₁ h₂
      cases h₁
    | some val =>
      simp only [getT, hr, htr, hdeps] at h
      injection h with h₁ h₂
      have hv : s₂.nextId = v := Option.some.inj h₁
      have hmono := getList_mono f' cb r.deps s _ _ hdeps
      have hnext : s₁.nextId = v + 1 := by
        rw [← h₂, hv]
      have hcount : countC s₁ t = countC s₂ t + 1 := by
        rw [← h₂]
        simp [countC, List.count_append]
      have h₃ := hmono.1
      have h₄ := hmono.2.2 t
      exact ⟨hv ▸ h₃, hnext, by omega⟩

/-- Two sequential successful transient `get` calls return distinct
instances. -/
theorem getT_transient_distinct {f₁ f₂ : Nat} {cb : CookBook} {t : Nat}
    {s : MState} {r : Recipe} {v₁ v₂ : Nat} {s₁ s₂ : MState}
    (hr : cb.findRecipe t = some r) (htr : r.lifetime = .transient)
    (h₁ : getT f₁ cb t s = (some v₁, s₁)) (h₂ : getT f₂ cb t s₁ = (some v₂, s₂)) :
    v₁ ≠ v₂ := by
  rcases getT_transient_fresh hr htr h₁ with ⟨_, hn₁, _⟩
  rcases getT_transient_fresh hr htr h₂ with ⟨hf₂, _, _⟩
  omega

/-- Iterating `get` for an already-cached singleton returns the cached
instance every time, without touching the state. -/
theorem getIter_cached {cb : CookBook} {t : Nat} {s : MState} {r : Recipe} {v : Nat}
    (hr : cb.findRecipe t = some r) (hsing : r.lifetime = .singleton)
    (hc : lookupCache s.cache t = some v) :
    ∀ n : Nat, getIter n cb t s = (List.replicate n (some v), s) := by
  intro n
  induction n with
  | zero => simp [getIter]
  | succ n ih =>
    have hstep := getT_singleton_cached_noop hr hsing hc (rmFuel cb)
    simp [getIter, hstep, ih, List.replicate_succ]

/-- N sequential `get` calls for the same singleton type: after the
first succeeds, every further call observes the same instance and the
state reached by the first call. -/
theorem getIter_first {cb : CookBook} {t : Nat} {s : MState} {r : Recipe}
    {v : Nat} {s₁ : MState}
    (hr : cb.findRecipe t = some r) (hsing : r.lifetime = .singleton)
    (h : getT (rmFuel cb) cb t s = (some v, s₁)) :
    ∀ n : Nat, getIter (n + 1) cb t s = (some v :: List.replicate n (some v), s₁) := by
  intro n
  have hcached := getT_singleton_caches hr hsing h
  have hrest := getIter_cached hr hsing hcached n
  simp [getIter, h, hrest]

/-- Writing back the value already bound to a reference leaves the heap
association list unchanged. -/
theorem updateAssoc_self {l : List (Nat × RuntimeManufactory)} {ref : Nat}
    {rm : RuntimeManufactory}
    (h : (l.find? (fun p => p.1 == ref)).map Prod.snd = some rm) :
    updateAssoc l ref rm = l := by
  induction l with
  | nil => simp at h
  | cons p rest ih =>
    by_cases hp : (p.1 == ref) = true
    · simp only [List.find?_cons, hp, Option.map_some'] at h
      have h₂ : p.2 = rm := Option.some.inj h
      have h₁ : p.1 = ref := by simpa using hp
      simp only [updateAssoc]
      rw [if_pos hp, ← h₁, ← h₂]
    · have hp₂ : (p.1 == ref) = false := by simpa using hp
      simp only [List.find?_cons, hp₂] at h
      simp only [updateAssoc]
      rw [if_neg (by simp [hp₂]), ih h]

/-- Writing back the RuntimeManufactory a reference already points to
leaves the heap unchanged. -/
theorem updateRM_self {w : World} {ref : Nat} {rm : RuntimeManufactory}
    (h : lookupRM w ref = some rm) : updateRM w ref rm = w := by
  unfold updateRM
  rw [updateAssoc_self h]

/-- No type is reachable in the empty CookBook. -/
theorem not_reachable_empty {t : Nat} : ¬ Reachable cbEmpty t := by
  intro h
  induction h with
  | base t ht => simp [cbEmpty] at ht
  | step a b r _ hr hb iha => exact iha

/-- The reachable types of `cbCycle` are exactly 1 and 2. -/
theorem reachable_cbCycle {t : Nat} (h : Reachable cbCycle t) : t = 1 ∨ t = 2 := by
  induction h with
  | base t ht =>
    left
    simpa [cbCycle] using ht
  | step a b r _ hr hb iha =>
    rcases iha with ha | ha
    · subst ha
      have h₁ : cbCycle.findRecipe 1 = some ⟨[2], .singleton⟩ := by decide
      have h₂ : r = ⟨[2], .singleton⟩ := Option.some.inj (hr.symm.trans h₁)
      right
      rw [h₂] at hb
      simpa using hb
    · subst ha
      have h₁ : cbCycle.findRecipe 2 = some ⟨[1], .singleton⟩ := by decide
      have h₂ : r = ⟨[1], .singleton⟩ := Option.some.inj (hr.symm.trans h₁)
      left
      rw [h₂] at hb
      simpa using hb

/-- Without `Import<...>` parameters, a Component's parameter types are
exactly its exported types. -/
theorem no_import_types_eq {ps : List CParam} (h : hasImport ps = false) :
    (ps.filterMap CParam.recipeOf).map Prod.fst = ps.map CParam.typeOf := by
  induction ps with
  | nil => rfl
  | cons p rest ih =>
    have hp : p.isImported = false := by
      by_contra hc
      have hp₂ : p.isImported = true := by
        cases hpi : p.isImported
        · exact absurd hpi hc
        · rfl
      unfold hasImport at h
      rw [List.any_cons, hp₂] at h
      simp at h
    have hrest : hasImport rest = false := by
      unfold hasImport at h
      rw [List.any_cons] at h
      unfold hasImport
      cases ha : rest.any CParam.isImported
      · rfl
      · rw [ha] at h
        simp at h
    cases p with
    | exported a rcp =>
      simp only [List.filterMap_cons, CParam.recipeOf, List.map_cons, CParam.typeOf]
      rw [ih hrest]
    | imported a => cases hp

/-- `hasImport` is false exactly when no parameter is an import. -/
theorem hasImport_eq_false_iff {ps : List CParam} :
    hasImport ps = false ↔ ∀ p ∈ ps, p.isImported = false := by
  unfold hasImport
  rw [List.any_eq_false]
  constructor
  · intro h p hp
    have := h p hp
    cases hpi : p.isImported
    · rfl
    · exact absurd hpi this
  · intro h p hp
    rw [h p hp]
    simp

/-- `removeTypes` is empty exactly when the first list is contained in
the second. -/
theorem removeTypes_eq_nil_iff {xs ys : List Nat} :
    removeTypes xs ys = [] ↔ ∀ x ∈ xs, x ∈ ys := by
  unfold removeTypes
  rw [List.filter_eq_nil_iff]
  constructor
  · intro h x hx
    have h₂ := h x hx
    have h₃ : ys.contains x = true := by simpa using h₂
    exact List.elem_iff.1 h₃
  · intro h x hx
    have h₃ : ys.contains x = true := List.elem_iff.2 (h x hx)
    simp [h₃]
    exact h x hx

/-- C1: for every component whose CookBook fails the completeness
check, `Manufactory<Exports...>::create(component)` returns a null
result and leaves the heap untouched: no Manufactory and no
RuntimeManufactory is produced, and the call is a total function (no
crash or abort). -/
theorem create_fails_on_incomplete_cookbook :
    ∀ (exports : List Nat) (c : Component) (w : World),
      (c.getCookBook).checkCompleteness ≠ .ok →
      Manufactory.create exports c w = (none, w) := by
  intro exports c w hne
  unfold Manufactory.create
  rcases h : (c.getCookBook).checkCompleteness with _ | x | x | _
  · exact absurd h hne
  · simp [h]
  · simp [h]
  · simp [h]

/-- Witness for C1 at a concrete failing component. -/
theorem create_fails_on_incomplete_cookbook_witness :
    compBad.getCookBook.checkCompleteness ≠ .ok ∧
    Manufactory.create [1] compBad ⟨[], 0⟩ = (none, ⟨[], 0⟩) := by
  have h : compBad.getCookBook.checkCompleteness = .missing 2 := by
    simp [CookBook.checkCompleteness, visitList, compBad, Component.getCookBook,
      CookBook.findRecipe, CParam.recipeOf]
  have hne : compBad.getCookBook.checkCompleteness ≠ .ok := by
    rw [h]
    simp
  exact ⟨hne, create_fails_on_incomplete_cookbook [1] compBad ⟨[], 0⟩ hne⟩

/-- C2: `createSubsetManufactory<Subset...>()` yields a facade holding
the same underlying RuntimeManufactory reference, with the heap
untouched (no new RuntimeManufactory, no new cache); `get` through the
subset facade agrees with `get` through the original, and an
already-cached singleton is returned as-is without invoking any
construct function (the heap, including the construction log, is left
exactly unchanged). -/
theorem subset_manufactory_shares_runtime :
    ∀ (m : Facade) (sub : List Nat) (w : World),
      subsetCompiles sub m.exports →
      ∃ msub : Facade,
        Manufactory.createSubsetManufactory m sub w = (some msub, w) ∧
        msub.rmRef = m.rmRef ∧
        (∀ t : Nat, Manufactory.get msub t w = Manufactory.get m t w) ∧
        (∀ (rm : RuntimeManufactory) (r : Recipe) (t v : Nat),
          lookupRM w m.rmRef = some rm →
          rm.cookBook.findRecipe t = some r → r.lifetime = .singleton →
          lookupCache rm.st.cache t = some v →
          Manufactory.get msub t w = (some v, w)) := by
  intro m sub w _
  refine ⟨⟨sub, m.rmRef⟩, rfl, rfl, ?_, ?_⟩
  · intro t
    simp only [Manufactory.get]
  · intro rm r t v hrm hr hsing hcv
    have hget : getT (rmFuel rm.cookBook) rm.cookBook t rm.st = (some v, rm.st) :=
      getT_singleton_cached_noop hr hsing hcv _
    have hrmget : rm.get t = (some v, rm) := by
      simp [RuntimeManufactory.get, hget]
    simp only [Manufactory.get, hrm, hrmget]
    rw [updateRM_self hrm]

/-- Witness for C2 on a concrete shared graph with a cached singleton. -/
theorem subset_manufactory_shares_runtime_witness :
    subsetCompiles [1, 2] mW.exports ∧
    ∃ msub : Facade,
      Manufactory.createSubsetManufactory mW [1, 2] wCached = (some msub, wCached) ∧
      msub.rmRef = mW.rmRef ∧
      Manufactory.get msub 2 wCached = (some 0, wCached) := by
  have hsc : subsetCompiles [1, 2] mW.exports := by
    show removeTypes [1, 2] mW.exports = []
    decide
  refine ⟨hsc, ?_⟩
  rcases subset_manufactory_shares_runtime mW [1, 2] wCached hsc with
    ⟨msub, h₁, h₂, h₃, h₄⟩
  exact ⟨msub, h₁, h₂,
    h₄ ⟨cbW, stCached⟩ ⟨[], .singleton⟩ 2 0 (by decide) (by decide) rfl (by decide)⟩

/-- C6: the facade's `get<Type>()` compiles exactly when `Type` is in
the declared export list (a static capability check), and at runtime it
is pure delegation to the underlying RuntimeManufactory's `get` — in
particular the export list plays no runtime role (no runtime membership
check). -/
theorem facade_get_delegates :
    ∀ (f : Facade) (t : Nat) (w : World),
      (getCompiles f t ↔ t ∈ f.exports) ∧
      (∀ rm : RuntimeManufactory, lookupRM w f.rmRef = some rm →
        Manufactory.get f t w = ((rm.get t).1, updateRM w f.rmRef (rm.get t).2)) ∧
      (∀ f₂ : Facade, f₂.rmRef = f.rmRef →
        Manufactory.get f₂ t w = Manufactory.get f t w) := by
  intro f t w
  refine ⟨List.elem_iff, ?_, ?_⟩
  · intro rm hrm
    simp only [Manufactory.get, hrm]
  · intro f₂ h
    simp only [Manufactory.get, h]

/-- Witness for C6 on a concrete facade and heap. -/
theorem facade_get_delegates_witness :
    (getCompiles mW 2 ↔ 2 ∈ mW.exports) ∧
    Manufactory.get mW 2 wCached =
      (((⟨cbW, stCached⟩ : RuntimeManufactory).get 2).1,
        updateRM wCached mW.rmRef ((⟨cbW, stCached⟩ : RuntimeManufactory).get 2).2) ∧
    Manufactory.get ⟨[2], 0⟩ 2 wCached = Manufactory.get mW 2 wCached := by
  rcases facade_get_delegates mW 2 wCached with ⟨h₁, h₂, h₃⟩
  exact ⟨h₁, h₂ ⟨cbW, stCached⟩ (by decide), h₃ ⟨[2], 0⟩ rfl⟩

/-- C7: a well-formed `Manufactory<Exports...>::create(component)` call
requires the component's declared export set to be a superset of
`Exports...`; a component missing any facade export fails the
compile-time check (and hence is rejected before any runtime
composition step). -/
theorem create_requires_superset_exports :
    ∀ (exports : List Nat) (c : Component),
      (createCompiles exports c → ∀ e ∈ exports, e ∈ c.exportedTypes) ∧
      (∀ e ∈ exports, e ∉ c.exportedTypes → ¬ createCompiles exports c) := by
  intro exports c
  have h₁ : createCompiles exports c → ∀ e ∈ exports, e ∈ c.exportedTypes := by
    rintro ⟨himp, hrem⟩ e he
    have hmem := removeTypes_eq_nil_iff.1 hrem e he
    unfold Component.exportedTypes
    rw [no_import_types_eq himp]
    exact hmem
  exact ⟨h₁, fun e he hne hcc => hne (h₁ hcc e he)⟩

/-- Witness for C7: a compiling create call on a concrete component. -/
theorem create_requires_superset_exports_witness :
    createCompiles [1] compW ∧ 1 ∈ compW.exportedTypes ∧
    (1 ∈ ([1] : List Nat) → 1 ∉ compBad.exportedTypes → False) ∧
    2 ∉ compBad.exportedTypes := by
  have hcc : createCompiles [1] compW := ⟨by decide, by decide⟩
  refine ⟨hcc, (create_requires_superset_exports [1] compW).1 hcc 1 (by decide),
    ?_, by decide⟩
  intro h₁ h₂
  exact (create_requires_superset_exports [1] compBad).2 1 h₁ h₂ ⟨by decide, by decide⟩

/-- C9: a well-formed `create(component)` call requires the component's
parameter pack to contain no `Import<Type>` entry: any unresolved import
fails the `HasImport` static assertion. -/
theorem create_rejects_imports :
    ∀ (exports : List Nat) (c : Component),
      (createCompiles exports c → ∀ p ∈ c.params, p.isImported = false) ∧
      ((∃ p ∈ c.params, p.isImported = true) → ¬ createCompiles exports c) := by
  intro exports c
  have h₁ : createCompiles exports c → ∀ p ∈ c.params, p.isImported = false := by
    rintro ⟨himp, _⟩ p hp
    exact hasImport_eq_false_iff.1 himp p hp
  refine ⟨h₁, ?_⟩
  rintro ⟨p, hp, himp⟩ hcc
  rw [h₁ hcc p hp] at himp
  cases himp

/-- Witness for C9: a concrete import-free component compiles; a
concrete component with an import is rejected. -/
theorem create_rejects_imports_witness :
    (∀ p ∈ compW.params, p.isImported = false) ∧
    ¬ createCompiles [1] compImp := by
  constructor
  · exact (create_rejects_imports [1] compW).1 ⟨by decide, by decide⟩
  · exact (create_rejects_imports [1] compImp).2 ⟨.imported 5, by decide, by decide⟩

/-- Exactly-once construction for a first-time singleton `get` against
a composed (completeness-checked) graph: the construct function of the
requested type runs exactly once in the call. -/
theorem singleton_exactly_once {cb : CookBook} {t : Nat} {r : Recipe} {f : Nat}
    {s : MState} {v : Nat} {s₁ : MState}
    (hok : cb.checkCompleteness = .ok) (ht : t ∈ cb.requiredExports)
    (hr : cb.findRecipe t = some r) (hsing : r.lifetime = .singleton)
    (hc : lookupCache s.cache t = none)
    (hrun : getT f cb t s = (some v, s₁)) :
    countC s₁ t = countC s t + 1 := by
  have hlow := getT_singleton_constructs hr hsing hc hrun
  have hbound := getT_once (Reachable.base t ht) (ok_acyclic hok) hrun t r hr hsing
  have hind₀ : cacheInd s t = 0 := by
    simp [cacheInd, hc]
  have hind₁ : cacheInd s₁ t = 1 := by
    simp [cacheInd, getT_singleton_caches hr hsing hrun]
  rw [hind₀, hind₁] at hbound
  omega

/-- C3: against a composed RuntimeManufactory, a second `get` of a
singleton type returns the identical instance with the state unchanged
(no construct-function invocation), a first-time singleton `get`
invokes the construct function exactly once, and every successful
transient `get` re-invokes the construct function and returns a fresh
instance — distinct from the previous one and never served from the
cache (its identity postdates the state's allocation counter). -/
theorem get_singleton_transient_semantics :
    ∀ cb : CookBook,
      (∀ (t : Nat) (r : Recipe) (f f₂ : Nat) (s : MState) (v : Nat) (s₁ : MState),
        cb.findRecipe t = some r → r.lifetime = .singleton →
        getT f cb t s = (some v, s₁) →
        getT f₂ cb t s₁ = (some v, s₁)) ∧
      (∀ (t : Nat) (r : Recipe) (f : Nat) (s : MState) (v : Nat) (s₁ : MState),
        cb.checkCompleteness = .ok → t ∈ cb.requiredExports →
        cb.findRecipe t = some r → r.lifetime = .singleton →
        lookupCache s.cache t = none →
        getT f cb t s = (some v, s₁) →
        countC s₁ t = countC s t + 1) ∧
      (∀ (t : Nat) (r : Recipe) (f f₂ : Nat) (s : MState) (v₁ : Nat) (s₁ : MState)
          (v₂ : Nat) (s₂ : MState),
        cb.findRecipe t = some r → r.lifetime = .transient →
        getT f cb t s = (some v₁, s₁) → getT f₂ cb t s₁ = (some v₂, s₂) →
        v₁ ≠ v₂ ∧ s.nextId ≤ v₁ ∧ s₁.nextId ≤ v₂ ∧
          countC s t + 1 ≤ countC s₁ t ∧ countC s₁ t + 1 ≤ countC s₂ t) := by
  intro cb
  refine ⟨?_, ?_, ?_⟩
  · intro t r f f₂ s v s₁ hr hsing hrun
    exact getT_singleton_repeat hr hsing hrun f₂
  · intro t r f s v s₁ hok ht hr hsing hc hrun
    exact singleton_exactly_once hok ht hr hsing hc hrun
  · intro t r f f₂ s v₁ s₁ v₂ s₂ hr htr hrun₁ hrun₂
    rcases getT_transient_fresh hr htr hrun₁ with ⟨hv₁, hn₁, hc₁⟩
    rcases getT_transient_fresh hr htr hrun₂ with ⟨hv₂, hn₂, hc₂⟩
    exact ⟨getT_transient_distinct hr htr hrun₁ hrun₂, hv₁, hv₂, hc₁, hc₂⟩

/-- Witness for C3 on the concrete graph `cbW`: singleton 2 and
transient 3. -/
theorem get_singleton_transient_semantics_witness :
    getT 4 cbW 2 ⟨[(2, 0)], 1, [2]⟩ = (some 0, ⟨[(2, 0)], 1, [2]⟩) ∧
    countC (⟨[(2, 0)], 1, [2]⟩ : MState) 2 = countC initMState 2 + 1 ∧
    (0 : Nat) ≠ 1 := by
  have hrun : getT 4 cbW 2 initMState = (some 0, ⟨[(2, 0)], 1, [2]⟩) := by
    simp [getT, getList, cbW, initMState, CookBook.findRecipe, lookupCache]
  have hok : cbW.checkCompleteness = .ok := by
    simp [CookBook.checkCompleteness, visitList, cbW, CookBook.findRecipe]
  have htr₁ : getT 4 cbW 3 initMState = (some 0, ⟨[], 1, [3]⟩) := by
    simp [getT, getList, cbW, initMState, CookBook.findRecipe, lookupCache]
  have htr₂ : getT 4 cbW 3 ⟨[], 1, [3]⟩ = (some 1, ⟨[], 2, [3, 3]⟩) := by
    simp [getT, getList, cbW, CookBook.findRecipe, lookupCache]
  refine ⟨(get_singleton_transient_semantics cbW).1 2 ⟨[], .singleton⟩ 4 4
      initMState 0 _ (by decide) rfl hrun,
    (get_singleton_transient_semantics cbW).2.1 2 ⟨[], .singleton⟩ 4
      initMState 0 _ hok (by decide) (by decide) rfl (by decide) hrun,
    ((get_singleton_transient_semantics cbW).2.2 3 ⟨[], .transient⟩ 4 4
      initMState 0 _ 1 _ (by decide) rfl htr₁ htr₂).1⟩

/-- C8: N serialized first-time `get` calls for the same singleton type
(the spec mandates mutual exclusion, so concurrent first use executes as
some sequential order of the N identical calls): exactly one
construct-function invocation occurs and every one of the N calls
observes the same resulting instance. -/
theorem concurrent_singleton_get_once :
    ∀ (cb : CookBook) (t : Nat) (r : Recipe) (n : Nat) (s : MState) (v : Nat)
      (s₁ : MState),
      cb.checkCompleteness = .ok → t ∈ cb.requiredExports →
      cb.findRecipe t = some r → r.lifetime = .singleton →
      lookupCache s.cache t = none →
      getT (rmFuel cb) cb t s = (some v, s₁) →
      getIter (n + 1) cb t s = (some v :: List.replicate n (some v), s₁) ∧
      countC s₁ t = countC s t + 1 := by
  intro cb t r n s v s₁ hok ht hr hsing hc hrun
  exact ⟨getIter_first hr hsing hrun n, singleton_exactly_once hok ht hr hsing hc hrun⟩

/-- Witness for C8: three serialized calls on the concrete graph. -/
theorem concurrent_singleton_get_once_witness :
    getIter 3 cbW 2 initMState = ([some 0, some 0, some 0], ⟨[(2, 0)], 1, [2]⟩) ∧
    countC (⟨[(2, 0)], 1, [2]⟩ : MState) 2 = countC initMState 2 + 1 := by
  have hok : cbW.checkCompleteness = .ok := by
    simp [CookBook.checkCompleteness, visitList, cbW, CookBook.findRecipe]
  have hfuel : rmFuel cbW = 4 := by decide
  have hrun : getT (rmFuel cbW) cbW 2 initMState = (some 0, ⟨[(2, 0)], 1, [2]⟩) := by
    rw [hfuel]
    simp [getT, getList, cbW, initMState, CookBook.findRecipe, lookupCache]
  have h := concurrent_singleton_get_once cbW 2 ⟨[], .singleton⟩ 2 initMState 0
    ⟨[(2, 0)], 1, [2]⟩ hok (by decide) (by decide) rfl (by decide) hrun
  rcases h with ⟨h₁, h₂⟩
  exact ⟨by simpa using h₁, h₂⟩

/-- C4 counterexample: on the CookBook `cbCycle` (required export 1,
Recipes 1 → 2 → 1 all present) every reachable type has a producing
Recipe, yet `checkCompleteness` does not return success — it reports the
cycle.  The claimed equivalence is therefore false as stated. -/
theorem checkCompleteness_iff_coverage_counterexample :
    ¬ (cbCycle.checkCompleteness = .ok ↔
        ∀ t : Nat, Reachable cbCycle t → (cbCycle.findRecipe t).isSome = true) := by
  intro hiff
  have hcov : ∀ t : Nat, Reachable cbCycle t → (cbCycle.findRecipe t).isSome = true := by
    intro t ht
    rcases reachable_cbCycle ht with h | h <;> subst h <;> decide
  have hok := hiff.2 hcov
  have hc : cbCycle.checkCompleteness = .cyclic 1 := by
    simp [CookBook.checkCompleteness, visitList, cbCycle, CookBook.findRecipe]
  rw [hc] at hok
  cases hok

/-- C4 (amended): over a CookBook whose reachable types lie on no
dependency cycle, `checkCompleteness` succeeds exactly when every
reachable type has a producing Recipe (the check is a pure function of
the CookBook — it constructs no instance); and removing the Recipe of
any reachable type flips a succeeding check into a failing one. -/
theorem checkCompleteness_iff_coverage_amended :
    ∀ cb : CookBook,
      ((∀ w : Nat, Reachable cb w → ¬ Relation.TransGen (Edge cb) w w) →
        (cb.checkCompleteness = .ok ↔
          ∀ t : Nat, Reachable cb t → (cb.findRecipe t).isSome = true)) ∧
      (∀ t : Nat, cb.checkCompleteness = .ok → Reachable cb t →
        (removeRecipe cb t).checkCompleteness ≠ .ok) := by
  intro cb
  constructor
  · intro hacyc
    constructor
    · intro hok t ht
      rcases ok_coverage hok t ht with ⟨r, hr⟩
      simp [hr]
    · intro hcov
      apply checkCompleteness_complete
      · intro t ht
        have hs := hcov t ht
        rcases hfr : cb.findRecipe t with _ | r
        · rw [hfr] at hs
          cases hs
        · exact ⟨r, rfl⟩
      · exact hacyc
  · intro t hok ht
    exact removeRecipe_breaks hok ht

/-- Witness for C4 (amended): the equivalence applied on a concrete
cycle-free CookBook, and a concrete removal flipping success to
failure. -/
theorem checkCompleteness_iff_coverage_amended_witness :
    cbEmpty.checkCompleteness = .ok ∧
    (removeRecipe cbW 1).checkCompleteness ≠ .ok := by
  have hacyc : ∀ w : Nat, Reachable cbEmpty w →
      ¬ Relation.TransGen (Edge cbEmpty) w w :=
    fun w hw => absurd hw not_reachable_empty
  have hcov : ∀ t : Nat, Reachable cbEmpty t →
      (cbEmpty.findRecipe t).isSome = true :=
    fun t ht => absurd ht not_reachable_empty
  have hok : cbW.checkCompleteness = .ok := by
    simp [CookBook.checkCompleteness, visitList, cbW, CookBook.findRecipe]
  exact ⟨((checkCompleteness_iff_coverage_amended cbEmpty).1 hacyc).2 hcov,
    (checkCompleteness_iff_coverage_amended cbW).2 1 hok
      (Reachable.base 1 (by decide))⟩

/-- C5 counterexample: `cbHidden` contains the dependency cycle
1 → 2 → 1 (type 1 is reachable from itself through dependencyTypes),
yet its completeness check succeeds, because the cycle is unreachable
from the required export 3 — so composition does not fail on every
graph containing a cycle. -/
theorem cycle_fails_composition_counterexample :
    Relation.TransGen (Edge cbHidden) 1 1 ∧ cbHidden.checkCompleteness = .ok := by
  constructor
  · have e₁₂ : Edge cbHidden 1 2 := ⟨⟨[2], .singleton⟩, by decide, by decide⟩
    have e₂₁ : Edge cbHidden 2 1 := ⟨⟨[1], .singleton⟩, by decide, by decide⟩
    exact Relation.TransGen.head e₁₂ (Relation.TransGen.single e₂₁)
  · simp [CookBook.checkCompleteness, visitList, cbHidden, CookBook.findRecipe]

/-- C5 (amended): for every dependency cycle on a type reachable from
the required exports, the completeness walk fails — and specifically
with the distinct cyclic-dependency condition whenever every reachable
type has a producing Recipe; moreover the walk's depth budget never
runs out on any input (the walk terminates, with no unbounded
recursion). -/
theorem cycle_fails_composition_amended :
    (∀ (cb : CookBook) (c : Nat), Reachable cb c →
      Relation.TransGen (Edge cb) c c →
      cb.checkCompleteness ≠ .ok ∧
        ((∀ t : Nat, Reachable cb t → (cb.findRecipe t).isSome = true) →
          ∃ x : Nat, cb.checkCompleteness = .cyclic x)) ∧
    (∀ cb : CookBook, cb.checkCompleteness ≠ .fuelOut) := by
  constructor
  · intro cb c hreach hcyc
    constructor
    · intro hok
      exact ok_acyclic hok c hreach hcyc
    · intro hcov
      apply cyclic_of_reachable_cycle hreach hcyc
      intro t ht
      have hs := hcov t ht
      rcases hfr : cb.findRecipe t with _ | r
      · rw [hfr] at hs
        cases hs
      · exact ⟨r, rfl⟩
  · exact checkCompleteness_no_fuelOut

/-- Witness for C5 (amended) on the concrete reachable cycle `cbCycle`. -/
theorem cycle_fails_composition_amended_witness :
    cbCycle.checkCompleteness ≠ .ok ∧
    (∃ x : Nat, cbCycle.checkCompleteness = .cyclic x) ∧
    cbW.checkCompleteness ≠ .fuelOut := by
  have hreach : Reachable cbCycle 1 := Reachable.base 1 (by decide)
  have hcyc : Relation.TransGen (Edge cbCycle) 1 1 := by
    have e₁₂ : Edge cbCycle 1 2 := ⟨⟨[2], .singleton⟩, by decide, by decide⟩
    have e₂₁ : Edge cbCycle 2 1 := ⟨⟨[1], .singleton⟩, by decide, by decide⟩
    exact Relation.TransGen.head e₁₂ (Relation.TransGen.single e₂₁)
  have hcov : ∀ t : Nat, Reachable cbCycle t → (cbCycle.findRecipe t).isSome = true := by
    intro t ht
    rcases reachable_cbCycle ht with h | h <;> subst h <;> decide
  rcases cycle_fails_composition_amended.1 cbCycle 1 hreach hcyc with ⟨h₁, h₂⟩
  exact ⟨h₁, h₂ hcov, cycle_fails_composition_amended.2 cbW⟩

/-- C10: the superset-facade overload of `createSubsetManufactory`
returns null on a null input shared pointer (after logging, without
dereferencing it), and on any non-null input returns, unconditionally
and without any completeness re-check, a non-null facade wrapping the
input's RuntimeManufactory reference. -/
theorem subset_from_input_null_handling :
    ∀ exports : List Nat,
      Manufactory.createSubsetFrom exports none = none ∧
      ∀ f : Facade, Manufactory.createSubsetFrom exports (some f) =
        some ⟨exports, f.rmRef⟩ := by
  intro exports
  exact ⟨rfl, fun f => rfl⟩

